import Mathlib

/- Verification of the cds-ils integration scripts: a shallow embedding of
the LDAP user synchronization module (cds_ils/ldap/api.py), the ping view
(cds_books/views.py) and the literature JSON serializer
(cds_ils/literature/serializers/json.py), together with proofs of the
specified properties. -/

set_option maxHeartbeats 1000000

namespace CdsIls

/-! ### String helpers

`str_lower` models Python's `str.lower()` as used by `ldap_user_get_email`;
`natRepr` renders a natural number in decimal, used to model the SQL
comparison of the integer `id_user` column against the LDAP `uidNumber`
string. -/

def str_lower (s : String) : String := String.mk (s.data.map Char.toLower)

def digitChar (n : Nat) : Char :=
  if n = 0 then '0' else if n = 1 then '1' else if n = 2 then '2'
  else if n = 3 then '3' else if n = 4 then '4' else if n = 5 then '5'
  else if n = 6 then '6' else if n = 7 then '7' else if n = 8 then '8'
  else '9'

def natReprAux : Nat → Nat → List Char
  | 0, _ => []
  | fuel + 1, n =>
    if n < 10 then [digitChar n]
    else natReprAux fuel (n / 10) ++ [digitChar (n % 10)]

def natRepr (n : Nat) : String := String.mk (natReprAux (n + 1) n)

/-! ### LDAP user records

An LDAP entry maps attribute names to lists of byte strings;
`ldap_user_get` takes the first value decoded as utf8. We model the five
attributes the sync code reads, each as the already-decoded first value.
`mail = none` models the `"mail"` key being absent from the entry. -/

structure LdapUser where
  mail : Option String
  displayName : String
  department : String
  employeeID : String
  uidNumber : String
deriving DecidableEq

/-- `ldap_user_get_email`: the `mail` attribute, normalized with `.lower()`.
Only ever called by the source on entries whose `mail` key is present. -/
def ldap_user_get_email (u : LdapUser) : String := str_lower (u.mail.getD "")

/-! ### The local (Invenio) database

Rows of the four tables touched by the sync job.  `IdentityRec` models
`UserIdentity` (its `id` column holds the LDAP `uidNumber` string, `id_user`
the Invenio user id); `RemoteAccountRec` models `RemoteAccount` with the
`extra_data` keys the code uses (`person_id`, `department`).  The
`next_user_id` / `next_ra_id` counters model autoincremented primary keys. -/

structure UserRec where
  id : Nat
  email : String
deriving DecidableEq

structure ProfileRec where
  user_id : Nat
  displayname : String
  full_name : String
deriving DecidableEq

structure IdentityRec where
  id : String
  id_user : Nat
deriving DecidableEq

structure RemoteAccountRec where
  id : Nat
  user_id : Nat
  person_id : String
  department : Option String
deriving DecidableEq

structure DB where
  users : List UserRec
  profiles : List ProfileRec
  identities : List IdentityRec
  remote_accounts : List RemoteAccountRec
  next_user_id : Nat
  next_ra_id : Nat
deriving DecidableEq

/-- `query.filter_by(...).one()`: returns the row when the filter selects
exactly one, and raises (modelled as `none`) on zero or several rows. -/
def query_one {α : Type} (l : List α) (p : α → Bool) : Option α :=
  match l.filter p with
  | [x] => some x
  | _ => none

/-! ### The in-memory LDAP user map

`ldap_users_map` is a Python dict keyed by the employee (person) id.  We
model it as an association list preserving insertion order: assignment
overwrites in place, `pop` removes the entry, `values()` lists the values
in order. -/

abbrev LMap := List (String × LdapUser)

def mapLookup : LMap → String → Option LdapUser
  | [], _ => none
  | (k', v) :: rest, k => if k' = k then some v else mapLookup rest k

def mapErase : LMap → String → LMap
  | [], _ => []
  | (k', v) :: rest, k => if k' = k then rest else (k', v) :: mapErase rest k

def mapInsert : LMap → String → LdapUser → LMap
  | [], k, v => [(k, v)]
  | (k', v') :: rest, k, v =>
    if k' = k then (k, v) :: rest else (k', v') :: mapInsert rest k v

def mapValues (m : LMap) : List LdapUser := m.map (fun e => e.2)

/-- The association list has pairwise distinct keys (true of every map the
sync code builds, since Python dict keys are unique). -/
def mapKeysNodup (m : LMap) : Prop := (m.map (fun e => e.1)).Nodup

/-! ### LdapUserImporter.import_user

Creates a `User` row (autoincremented id, lowercased email), a
`UserIdentity` (id = uidNumber), a `UserProfile` and a `RemoteAccount`
(person_id = employeeID, department). -/

def import_user (db : DB) (u : LdapUser) : Nat × DB :=
  let uid := db.next_user_id
  (uid,
    { users := db.users ++ [{ id := uid, email := ldap_user_get_email u }]
      profiles := db.profiles ++
        [{ user_id := uid, displayname := "id_" ++ natRepr uid,
           full_name := u.displayName }]
      identities := db.identities ++ [{ id := u.uidNumber, id_user := uid }]
      remote_accounts := db.remote_accounts ++
        [{ id := db.next_ra_id, user_id := uid, person_id := u.employeeID,
           department := some u.department }]
      next_user_id := uid + 1
      next_ra_id := db.next_ra_id + 1 })

/-- `User.query.filter_by(email=email).count() > 0` -/
def email_exists (db : DB) (email : String) : Bool :=
  db.users.any (fun x => x.email == email)

/-- `UserIdentity.query.filter_by(id_user=uid_number).count() > 0`: the
source filters the integer `id_user` column by the uidNumber string, which
SQL compares after casting the integer to its decimal form. -/
def user_identity_exists (db : DB) (uidNumber : String) : Bool :=
  db.identities.any (fun i => uidNumber == natRepr i.id_user)

/-! ### import_users: the one-shot LDAP import command -/

def import_users_go : List LdapUser → DB → Nat → DB × Nat
  | [], db, c => (db, c)
  | u :: rest, db, c =>
    match u.mail with
    | none => import_users_go rest db c
    | some _ =>
      if ldap_user_get_email u = "" then import_users_go rest db c
      else if email_exists db (ldap_user_get_email u) then
        import_users_go rest db c
      else import_users_go rest (import_user db u).2 (c + 1)

/-- `import_users`: walk the LDAP listing, skipping entries with a missing
or empty mail attribute and entries whose email already exists, importing
the rest; returns the final database state and the imported count. -/
def import_users (db : DB) (l : List LdapUser) : DB × Nat :=
  import_users_go l db 0

/-! ### update_users / get_ldap_users: cache the LDAP listing -/

def get_ldap_users_go : List LdapUser → LMap → List String → LMap × List String
  | [], m, s => (m, s)
  | u :: rest, m, s =>
    match u.mail with
    | none => get_ldap_users_go rest m s
    | some _ =>
      if ldap_user_get_email u = "" then get_ldap_users_go rest m s
      else if ldap_user_get_email u ∈ s then get_ldap_users_go rest m s
      else get_ldap_users_go rest (mapInsert m u.employeeID u)
             (s ++ [ldap_user_get_email u])

/-- `get_ldap_users`: the fetched count (all entries, skipped or not), the
map keyed by employee id, and the set of seen emails. -/
def get_ldap_users (l : List LdapUser) : Nat × LMap × List String :=
  (l.length, get_ldap_users_go l [] [])

/-! ### update_users / update_invenio_users_from_ldap -/

def set_profile_full_name (db : DB) (uid : Nat) (name : String) : DB :=
  { db with profiles :=
      db.profiles.map fun p =>
        if p.user_id = uid then { p with full_name := name } else p }

def set_ra_department (db : DB) (raid : Nat) (dept : String) : DB :=
  { db with remote_accounts :=
      db.remote_accounts.map fun ra =>
        if ra.id = raid then { ra with department := some dept } else ra }

def set_user_email (db : DB) (uid : Nat) (email : String) : DB :=
  { db with users :=
      db.users.map fun x =>
        if x.id = uid then { x with email := email } else x }

/-- `_update_invenio_user`: set the profile's full name, the remote
account's department (after fetching it with `.one()`, which may raise) and
the user's email from the LDAP entry. -/
def _update_invenio_user (db : DB) (raid : Nat) (uid : Nat) (lu : LdapUser) :
    Option DB :=
  match query_one db.remote_accounts (fun ra => ra.id == raid) with
  | none => none
  | some _ =>
    some (set_user_email
            (set_ra_department (set_profile_full_name db uid lu.displayName)
              raid lu.department)
            uid (ldap_user_get_email lu))

/-- One iteration of the `update_invenio_users_from_ldap` loop for the
snapshot entry `iu`: pop the LDAP match out of the map, fetch profile and
user with `.one()`, compare display name, department and email, and update
(counting it) only if some field differs. -/
def update_step (db : DB) (m : LMap) (c : Nat) (iu : RemoteAccountRec) :
    Option (DB × LMap × Nat) :=
  match mapLookup m iu.person_id with
  | none => some (db, mapErase m iu.person_id, c)
  | some lu =>
    match query_one db.profiles (fun p => p.user_id == iu.user_id),
          query_one db.users (fun x => x.id == iu.user_id) with
    | some profile, some user =>
      if lu.displayName ≠ profile.full_name ∨
          iu.department ≠ some lu.department ∨
          ldap_user_get_email lu ≠ user.email then
        match _update_invenio_user db iu.id iu.user_id lu with
        | none => none
        | some db' => some (db', mapErase m iu.person_id, c + 1)
      else some (db, mapErase m iu.person_id, c)
    | _, _ => none

def update_loop : List RemoteAccountRec → DB → LMap → Nat →
    Option (DB × LMap × Nat)
  | [], db, m, c => some (db, m, c)
  | iu :: rest, db, m, c =>
    match update_step db m c iu with
    | none => none
    | some (db', m', c') => update_loop rest db' m' c'

/-- `update_invenio_users_from_ldap`: fold the per-user step over the
snapshot of remote accounts; `none` models an unhandled exception. -/
def update_invenio_users_from_ldap (db : DB) (ius : List RemoteAccountRec)
    (m : LMap) : Option (DB × LMap × Nat) :=
  update_loop ius db m 0

/-! ### update_users / import_new_ldap_users -/

def import_new_go : List LdapUser → DB → Nat → DB × Nat
  | [], db, c => (db, c)
  | u :: rest, db, c =>
    if email_exists db (ldap_user_get_email u) then import_new_go rest db c
    else if user_identity_exists db u.uidNumber then import_new_go rest db c
    else import_new_go rest (import_user db u).2 (c + 1)

/-- `import_new_ldap_users`: import the LDAP entries left unmatched by the
update phase, skipping entries whose email already exists or whose identity
check fires. -/
def import_new_ldap_users (db : DB) (l : List LdapUser) : DB × Nat :=
  import_new_go l db 0

/-- `update_users`: cache the LDAP listing; if no entry had a valid email
return `(0, 0, 0)` untouched; otherwise run the update pass over the
remote-account snapshot, then import the remaining map values, and return
(fetched, updated, added) with the final database state. -/
def update_users (db : DB) (ldap : List LdapUser) :
    Option ((Nat × Nat × Nat) × DB) :=
  if (get_ldap_users ldap).2.2 = [] then some ((0, 0, 0), db)
  else
    match update_invenio_users_from_ldap db db.remote_accounts
        (get_ldap_users ldap).2.1 with
    | none => none
    | some (db1, m1, updated) =>
      some (((get_ldap_users ldap).1, updated,
             (import_new_ldap_users db1 (mapValues m1)).2),
            (import_new_ldap_users db1 (mapValues m1)).1)

/-- The local records attached to user id `uid` and remote account id
`raid` agree with the LDAP entry `lu` on the three compared fields. -/
def SyncedAt (db : DB) (uid raid : Nat) (lu : LdapUser) : Prop :=
  (query_one db.profiles (fun p => p.user_id == uid)).map
      (fun p => p.full_name) = some lu.displayName ∧
  (query_one db.remote_accounts (fun ra => ra.id == raid)).map
      (fun ra => ra.department) = some (some lu.department) ∧
  (query_one db.users (fun x => x.id == uid)).map
      (fun x => x.email) = some (ldap_user_get_email lu)

/-- Autoincrement counters dominate every id already present. -/
def DBBounds (db : DB) : Prop :=
  (∀ i ∈ db.users.map (fun x => x.id), i < db.next_user_id) ∧
  (∀ i ∈ db.profiles.map (fun p => p.user_id), i < db.next_user_id) ∧
  (∀ i ∈ db.remote_accounts.map (fun ra => ra.user_id), i < db.next_user_id) ∧
  (∀ i ∈ db.remote_accounts.map (fun ra => ra.id), i < db.next_ra_id)

/-- Well-formed database: primary keys are unique, each user has at most
one profile and at most one remote account for the app (the invariant the
spec states, with the employee id as the stable join key), and the
autoincrement counters are fresh. -/
def WF (db : DB) : Prop :=
  (db.users.map (fun x => x.id)).Nodup ∧
  (db.profiles.map (fun p => p.user_id)).Nodup ∧
  (db.remote_accounts.map (fun ra => ra.id)).Nodup ∧
  (db.remote_accounts.map (fun ra => ra.user_id)).Nodup ∧
  (db.remote_accounts.map (fun ra => ra.person_id)).Nodup ∧
  DBBounds db

/-! ### delete_users and _delete_invenio_user -/

/-- `delete_users` raises `NotImplementedError("not yet tested properly")`
unconditionally, before touching any state, whatever `dry_run` is. -/
def delete_users (_dry_run : Bool) : Except String (Nat × Nat) :=
  Except.error "not yet tested properly"

/-- Possible outcomes of the external `anonymize_patron_data` call. -/
inductive AnonymizeOutcome
  | ok
  | activeLoansError
  | otherError
deriving DecidableEq

/-- `_delete_invenio_user`: returns `(returned value, warning mail queued)`;
`none` models any exception other than `AnonymizationActiveLoansError`
propagating out of the `try` block. -/
def _delete_invenio_user (anonymize : AnonymizeOutcome) :
    Option (Bool × Bool) :=
  match anonymize with
  | AnonymizeOutcome.ok => some (true, false)
  | AnonymizeOutcome.activeLoansError => some (false, true)
  | AnonymizeOutcome.otherError => none

/-! ### LdapClient.get_primary_accounts: paginated fetch

A server page carries its entries and the paged-results control as the
server returned it: `none` when the response carries no such control,
`some cookie` otherwise.  `has_more_pages` mirrors the two `break`
conditions of the `while True` loop. -/

structure LdapPage where
  entries : List LdapUser
  control : Option String
deriving DecidableEq

def has_more_pages (p : LdapPage) : Bool :=
  match p.control with
  | none => false
  | some cookie => cookie != ""

/-- `get_primary_accounts` over the finite sequence of responses the server
would give: collect each page's entries, continuing exactly while the
response carries a paged-results control with a non-empty cookie. -/
def get_primary_accounts : List LdapPage → List LdapUser
  | [] => []
  | p :: rest =>
    p.entries ++ (if has_more_pages p then get_primary_accounts rest else [])

/-- A well-formed server interaction: at least one response, every
non-final page carries a non-empty continuation cookie, and the final page
omits the control or returns an empty cookie. -/
def pages_well_formed : List LdapPage → Bool
  | [] => false
  | [p] => !(has_more_pages p)
  | p :: rest => has_more_pages p && pages_well_formed rest

/-! ### The ping view (cds_books/views.py) -/

structure HttpResponse where
  status : Nat
  body : String
deriving DecidableEq

/-- Flask turns a string returned from a view into a 200 response with that
string as body. -/
def flask_text_response (s : String) : HttpResponse :=
  { status := 200, body := s }

/-- The `/ping` view returns the literal `'OK'` whatever the application
state is. -/
def ping {α : Type} (_app_state : α) : HttpResponse :=
  flask_text_response "OK"

/-! ### LiteratureJSONSerializer (cds_ils/literature/serializers/json.py)

The parent serializer's output is the input here; `ε` is the type of one
eitem hit, `μ` the remaining metadata fields, `ρ` the remaining top-level
fields, and `fmt` the external `format_login_required_urls` helper. -/

structure EitemsBlock (ε : Type) where
  hits : List ε
  total : Nat
deriving DecidableEq

structure LitMetadata (ε μ : Type) where
  eitems : Option (EitemsBlock ε)
  rest : μ
deriving DecidableEq

structure Literature (ε μ ρ : Type) where
  metadata : LitMetadata ε μ
  rest : ρ
deriving DecidableEq

/-- `literature["metadata"].get("eitems", {}).get("hits", [])` walked with
`format_login_required_urls` applied to each hit in place. -/
def rewrite_eitem_urls {ε μ ρ : Type} (fmt : ε → ε)
    (lit : Literature ε μ ρ) : Literature ε μ ρ :=
  match lit.metadata.eitems with
  | none => lit
  | some block =>
    { lit with metadata :=
        { lit.metadata with eitems := some { block with hits := block.hits.map fmt } } }

/-- `transform_record`: delegate to the parent serializer (its output is
the argument) and rewrite the eitem URLs. -/
def transform_record {ε μ ρ : Type} (fmt : ε → ε)
    (parent_output : Literature ε μ ρ) : Literature ε μ ρ :=
  rewrite_eitem_urls fmt parent_output

/-- `transform_search_hit`: same shape as `transform_record`. -/
def transform_search_hit {ε μ ρ : Type} (fmt : ε → ε)
    (parent_output : Literature ε μ ρ) : Literature ε μ ρ :=
  rewrite_eitem_urls fmt parent_output

/-! ### Concrete values used by the witnesses -/

def exLdapUser1 : LdapUser :=
  { mail := some "joe.foe@cern.ch", displayName := "Joe Foe",
    department := "IT", employeeID := "101010", uidNumber := "100000" }

def exLdapUser2 : LdapUser :=
  { mail := some "ann.bar@cern.ch", displayName := "Ann Bar",
    department := "EP", employeeID := "202020", uidNumber := "100001" }

def exLdapUserNoMail : LdapUser :=
  { mail := none, displayName := "No Mail",
    department := "HR", employeeID := "303030", uidNumber := "100002" }

def exLdapUserEmptyMail : LdapUser :=
  { mail := some "", displayName := "Empty Mail",
    department := "HR", employeeID := "404040", uidNumber := "100003" }

def exEmptyDb : DB :=
  { users := [], profiles := [], identities := [], remote_accounts := [],
    next_user_id := 1, next_ra_id := 1 }

def exDb1 : DB :=
  { users := [{ id := 5, email := "joe.foe@cern.ch" }]
    profiles := [{ user_id := 5, displayname := "id_5", full_name := "Old Name" }]
    identities := [{ id := "100000", id_user := 5 }]
    remote_accounts := [{ id := 1, user_id := 5, person_id := "101010",
                          department := some "FAP" }]
    next_user_id := 6
    next_ra_id := 2 }

/-- Failing input for the identity-uniqueness check: the database holds a
user identity whose `id` is `"100000"`, and a fresh LDAP entry (different
person, different email) carries that very `uidNumber`. -/
def exDbC4 : DB :=
  { users := [{ id := 5, email := "old.mail@cern.ch" }]
    profiles := [{ user_id := 5, displayname := "id_5", full_name := "Old Name" }]
    identities := [{ id := "100000", id_user := 5 }]
    remote_accounts := [{ id := 1, user_id := 5, person_id := "101010",
                          department := some "IT" }]
    next_user_id := 6
    next_ra_id := 2 }

def exLdapC4 : LdapUser :=
  { mail := some "new.mail@cern.ch", displayName := "New Name",
    department := "EP", employeeID := "999999", uidNumber := "100000" }

def exPages : List LdapPage :=
  [{ entries := [exLdapUser1], control := some "cookie1" },
   { entries := [exLdapUser2], control := some "" }]

def exLitNoEitems : Literature Nat Unit Unit :=
  { metadata := { eitems := none, rest := () }, rest := () }

/-- The state reached by running `update_users` on the empty database with
the one-entry listing `[exLdapUser1]`. -/
def exDbAfter : DB :=
  { users := [{ id := 1, email := "joe.foe@cern.ch" }]
    profiles := [{ user_id := 1, displayname := "id_1", full_name := "Joe Foe" }]
    identities := [{ id := "100000", id_user := 1 }]
    remote_accounts := [{ id := 1, user_id := 1, person_id := "101010",
                          department := some "IT" }]
    next_user_id := 2
    next_ra_id := 2 }

/-! ## Theorems -/

/-! ### Helper lemmas: entries without a usable email are skipped -/

theorem get_ldap_users_go_invalid (e : LdapUser)
    (he : e.mail = none ∨ ldap_user_get_email e = "") :
    ∀ (l : List LdapUser) (m : LMap) (s : List String),
      get_ldap_users_go (e :: l) m s = get_ldap_users_go l m s := by
  intro l m s
  rcases he with h | h
  · simp [get_ldap_users_go, h]
  · cases hm : e.mail with
    | none => simp [get_ldap_users_go, hm]
    | some v => simp [get_ldap_users_go, hm, h]

theorem get_ldap_users_go_skip (e : LdapUser)
    (he : e.mail = none ∨ ldap_user_get_email e = "") :
    ∀ (pre post : List LdapUser) (m : LMap) (s : List String),
      get_ldap_users_go (pre ++ e :: post) m s
        = get_ldap_users_go (pre ++ post) m s := by
  intro pre
  induction pre with
  | nil =>
    intro post m s
    simpa using get_ldap_users_go_invalid e he post m s
  | cons u rest ih =>
    intro post m s
    cases hm : u.mail with
    | none =>
      simp only [List.cons_append, get_ldap_users_go, hm]
      exact ih post m s
    | some v =>
      simp only [List.cons_append, get_ldap_users_go, hm]
      by_cases h1 : ldap_user_get_email u = ""
      · simp only [if_pos h1]; exact ih post m s
      · simp only [if_neg h1]
        by_cases h2 : ldap_user_get_email u ∈ s
        · simp only [if_pos h2]; exact ih post m s
        · simp only [if_neg h2]
          exact ih post (mapInsert m u.employeeID u) (s ++ [ldap_user_get_email u])

theorem get_ldap_users_go_all_invalid :
    ∀ (l : List LdapUser),
      (∀ u ∈ l, u.mail = none ∨ ldap_user_get_email u = "") →
      ∀ (m : LMap) (s : List String), get_ldap_users_go l m s = (m, s) := by
  intro l
  induction l with
  | nil => intro _ m s; rfl
  | cons u rest ih =>
    intro h m s
    rw [get_ldap_users_go_invalid u (h u (by simp)) rest m s]
    exact ih (fun v hv => h v (by simp [hv])) m s

theorem import_users_go_invalid (e : LdapUser)
    (he : e.mail = none ∨ ldap_user_get_email e = "") :
    ∀ (l : List LdapUser) (db : DB) (c : Nat),
      import_users_go (e :: l) db c = import_users_go l db c := by
  intro l db c
  rcases he with h | h
  · simp [import_users_go, h]
  · cases hm : e.mail with
    | none => simp [import_users_go, hm]
    | some v => simp [import_users_go, hm, h]

theorem import_users_go_skip (e : LdapUser)
    (he : e.mail = none ∨ ldap_user_get_email e = "") :
    ∀ (pre post : List LdapUser) (db : DB) (c : Nat),
      import_users_go (pre ++ e :: post) db c
        = import_users_go (pre ++ post) db c := by
  intro pre
  induction pre with
  | nil =>
    intro post db c
    simpa using import_users_go_invalid e he post db c
  | cons u rest ih =>
    intro post db c
    cases hm : u.mail with
    | none =>
      simp only [List.cons_append, import_users_go, hm]
      exact ih post db c
    | some v =>
      simp only [List.cons_append, import_users_go, hm]
      by_cases h1 : ldap_user_get_email u = ""
      · simp only [if_pos h1]; exact ih post db c
      · simp only [if_neg h1]
        by_cases h2 : email_exists db (ldap_user_get_email u) = true
        · simp only [if_pos h2]; exact ih post db c
        · simp only [if_neg h2]
          exact ih post (import_user db u).2 (c + 1)

/-- C3: for every LDAP entry with a missing or empty mail attribute, both
`import_users` and `update_users` skip that entry: removing it from the
listing changes neither the imported count, the updated/added counts, nor
the resulting database state (only the raw fetched count, which counts
every listed entry, can differ). -/
theorem claim_C3 (db : DB) (pre post : List LdapUser) (e : LdapUser)
    (he : e.mail = none ∨ ldap_user_get_email e = "") :
    import_users db (pre ++ e :: post) = import_users db (pre ++ post) ∧
    Option.map (fun r => (r.1.2, r.2)) (update_users db (pre ++ e :: post)) =
      Option.map (fun r => (r.1.2, r.2)) (update_users db (pre ++ post)) := by
  constructor
  · unfold import_users
    exact import_users_go_skip e he pre post db 0
  · unfold update_users get_ldap_users
    rw [get_ldap_users_go_skip e he pre post [] []]
    by_cases hemp : (get_ldap_users_go (pre ++ post) [] []).2 = []
    · simp [hemp]
    · simp only [hemp, if_neg]
      cases update_invenio_users_from_ldap db db.remote_accounts
          (get_ldap_users_go (pre ++ post) [] []).1 with
      | none => rfl
      | some t => rfl

/-- Witness for C3: a mail-less entry in the middle of the listing is
skipped by both commands. -/
theorem claim_C3_witness :
    import_users exDb1 ([exLdapUser1] ++ exLdapUserNoMail :: [exLdapUser2])
      = import_users exDb1 ([exLdapUser1] ++ [exLdapUser2]) ∧
    Option.map (fun r => (r.1.2, r.2))
        (update_users exDb1 ([exLdapUser1] ++ exLdapUserNoMail :: [exLdapUser2]))
      = Option.map (fun r => (r.1.2, r.2))
        (update_users exDb1 ([exLdapUser1] ++ [exLdapUser2])) :=
  claim_C3 exDb1 [exLdapUser1] [exLdapUser2] exLdapUserNoMail (Or.inl rfl)

/-- C10: when no LDAP entry carries a non-empty email, `update_users`
returns `(0, 0, 0)` and leaves the database untouched, even for a
non-empty listing (the first component is 0, not the fetched count). -/
theorem claim_C10 (db : DB) (ldap : List LdapUser)
    (h : ∀ u ∈ ldap, u.mail = none ∨ ldap_user_get_email u = "") :
    update_users db ldap = some ((0, 0, 0), db) := by
  unfold update_users get_ldap_users
  rw [get_ldap_users_go_all_invalid ldap h [] []]
  rfl

/-- Witness for C10 on a non-empty listing with no usable email. -/
theorem claim_C10_witness :
    update_users exDb1 [exLdapUserNoMail, exLdapUserEmptyMail]
      = some ((0, 0, 0), exDb1) :=
  claim_C10 exDb1 [exLdapUserNoMail, exLdapUserEmptyMail] (by decide)

/-! ### Helper lemmas: shape preservation of the two sync phases -/

theorem map_map_key {α β : Type} (l : List α) (f : α → α) (key : α → β)
    (hf : ∀ x, key (f x) = key x) : (l.map f).map key = l.map key := by
  induction l with
  | nil => rfl
  | cons x xs ih => simp [hf, ih]

theorem import_users_go_users :
    ∀ (l : List LdapUser) (db : DB) (c : Nat),
      ∃ t, (import_users_go l db c).1.users = db.users ++ t := by
  intro l
  induction l with
  | nil => intro db c; exact ⟨[], by simp [import_users_go]⟩
  | cons u rest ih =>
    intro db c
    cases hm : u.mail with
    | none => simp only [import_users_go, hm]; exact ih db c
    | some v =>
      simp only [import_users_go, hm]
      by_cases h1 : ldap_user_get_email u = ""
      · simp only [if_pos h1]; exact ih db c
      · simp only [if_neg h1]
        by_cases h2 : email_exists db (ldap_user_get_email u) = true
        · simp only [if_pos h2]; exact ih db c
        · simp only [if_neg h2]
          obtain ⟨t, ht⟩ := ih (import_user db u).2 (c + 1)
          refine ⟨{ id := db.next_user_id, email := ldap_user_get_email u } :: t, ?_⟩
          rw [ht]
          simp [import_user]

theorem import_new_go_users :
    ∀ (l : List LdapUser) (db : DB) (c : Nat),
      ∃ t, (import_new_go l db c).1.users = db.users ++ t := by
  intro l
  induction l with
  | nil => intro db c; exact ⟨[], by simp [import_new_go]⟩
  | cons u rest ih =>
    intro db c
    by_cases h1 : email_exists db (ldap_user_get_email u) = true
    · simp only [import_new_go, if_pos h1]; exact ih db c
    · simp only [import_new_go, if_neg h1]
      by_cases h2 : user_identity_exists db u.uidNumber = true
      · simp only [if_pos h2]; exact ih db c
      · simp only [if_neg h2]
        obtain ⟨t, ht⟩ := ih (import_user db u).2 (c + 1)
        refine ⟨{ id := db.next_user_id, email := ldap_user_get_email u } :: t, ?_⟩
        rw [ht]
        simp [import_user]

theorem update_setters_shape (db : DB) (uid raid : Nat) (n d em : String) :
    (set_user_email (set_ra_department (set_profile_full_name db uid n) raid d)
        uid em).users.map (fun u => u.id) = db.users.map (fun u => u.id) ∧
    (set_user_email (set_ra_department (set_profile_full_name db uid n) raid d)
        uid em).profiles.map (fun p => p.user_id)
      = db.profiles.map (fun p => p.user_id) ∧
    (set_user_email (set_ra_department (set_profile_full_name db uid n) raid d)
        uid em).remote_accounts.map (fun ra => (ra.id, ra.user_id, ra.person_id))
      = db.remote_accounts.map (fun ra => (ra.id, ra.user_id, ra.person_id)) ∧
    (set_user_email (set_ra_department (set_profile_full_name db uid n) raid d)
        uid em).identities = db.identities ∧
    (set_user_email (set_ra_department (set_profile_full_name db uid n) raid d)
        uid em).next_user_id = db.next_user_id ∧
    (set_user_email (set_ra_department (set_profile_full_name db uid n) raid d)
        uid em).next_ra_id = db.next_ra_id := by
  refine ⟨?_, ?_, ?_, rfl, rfl, rfl⟩
  · exact map_map_key _ _ _ (fun x => by by_cases h : x.id = uid <;> simp [h])
  · exact map_map_key _ _ _ (fun x => by by_cases h : x.user_id = uid <;> simp [h])
  · exact map_map_key _ _ _ (fun x => by by_cases h : x.id = raid <;> simp [h])

theorem update_step_shape {db : DB} {m : LMap} {c : Nat} {iu : RemoteAccountRec}
    {db' : DB} {m' : LMap} {c' : Nat}
    (h : update_step db m c iu = some (db', m', c')) :
    db'.users.map (fun u => u.id) = db.users.map (fun u => u.id) ∧
    db'.profiles.map (fun p => p.user_id) = db.profiles.map (fun p => p.user_id) ∧
    db'.remote_accounts.map (fun ra => (ra.id, ra.user_id, ra.person_id))
      = db.remote_accounts.map (fun ra => (ra.id, ra.user_id, ra.person_id)) ∧
    db'.identities = db.identities ∧
    db'.next_user_id = db.next_user_id ∧
    db'.next_ra_id = db.next_ra_id := by
  unfold update_step at h
  cases hl : mapLookup m iu.person_id with
  | none =>
    simp only [hl, Option.some.injEq, Prod.mk.injEq] at h
    obtain ⟨h1, -, -⟩ := h
    subst h1
    exact ⟨rfl, rfl, rfl, rfl, rfl, rfl⟩
  | some lu =>
    simp only [hl] at h
    cases hp : query_one db.profiles (fun p => p.user_id == iu.user_id) with
    | none =>
      simp only [hp] at h
      exact Option.noConfusion h
    | some prof =>
      simp only [hp] at h
      cases hu : query_one db.users (fun x => x.id == iu.user_id) with
      | none =>
        simp only [hu] at h
        exact Option.noConfusion h
      | some usr =>
        simp only [hu] at h
        by_cases hch : (lu.displayName ≠ prof.full_name ∨
            iu.department ≠ some lu.department ∨
            ldap_user_get_email lu ≠ usr.email)
        · rw [if_pos hch] at h
          unfold _update_invenio_user at h
          cases hra : query_one db.remote_accounts (fun ra => ra.id == iu.id) with
          | none =>
            simp only [hra] at h
            exact Option.noConfusion h
          | some ra0 =>
            simp only [hra, Option.some.injEq, Prod.mk.injEq] at h
            obtain ⟨h1, -, -⟩ := h
            subst h1
            exact update_setters_shape db iu.user_id iu.id lu.displayName
              lu.department (ldap_user_get_email lu)
        · rw [if_neg hch] at h
          simp only [Option.some.injEq, Prod.mk.injEq] at h
          obtain ⟨h1, -, -⟩ := h
          subst h1
          exact ⟨rfl, rfl, rfl, rfl, rfl, rfl⟩

theorem update_loop_shape :
    ∀ (ius : List RemoteAccountRec) (db : DB) (m : LMap) (c : Nat)
      (db' : DB) (m' : LMap) (c' : Nat),
      update_loop ius db m c = some (db', m', c') →
      db'.users.map (fun u => u.id) = db.users.map (fun u => u.id) ∧
      db'.profiles.map (fun p => p.user_id) = db.profiles.map (fun p => p.user_id) ∧
      db'.remote_accounts.map (fun ra => (ra.id, ra.user_id, ra.person_id))
        = db.remote_accounts.map (fun ra => (ra.id, ra.user_id, ra.person_id)) ∧
      db'.identities = db.identities ∧
      db'.next_user_id = db.next_user_id ∧
      db'.next_ra_id = db.next_ra_id := by
  intro ius
  induction ius with
  | nil =>
    intro db m c db' m' c' h
    simp only [update_loop, Option.some.injEq, Prod.mk.injEq] at h
    obtain ⟨h1, _, _⟩ := h
    subst h1
    exact ⟨rfl, rfl, rfl, rfl, rfl, rfl⟩
  | cons iu rest ih =>
    intro db m c db' m' c' h
    unfold update_loop at h
    cases hs : update_step db m c iu with
    | none =>
      simp only [hs] at h
      exact Option.noConfusion h
    | some t =>
      obtain ⟨db1, m1, c1⟩ := t
      simp only [hs] at h
      obtain ⟨a1, a2, a3, a4, a5, a6⟩ := update_step_shape hs
      obtain ⟨b1, b2, b3, b4, b5, b6⟩ := ih db1 m1 c1 db' m' c' h
      exact ⟨b1.trans a1, b2.trans a2, b3.trans a3, b4.trans a4,
             b5.trans a5, b6.trans a6⟩

/-! ### Helper lemmas about query_one -/

theorem filter_map_key {α : Type} (l : List α) (f : α → α) (p : α → Bool)
    (hf : ∀ x, p (f x) = p x) : (l.map f).filter p = (l.filter p).map f := by
  induction l with
  | nil => rfl
  | cons x xs ih =>
    by_cases h : p x = true <;>
      simp [List.filter_cons, hf, h, ih]

theorem query_one_map_f {α : Type} (l : List α) (f : α → α) (p : α → Bool)
    (hf : ∀ x, p (f x) = p x) :
    query_one (l.map f) p = (query_one l p).map f := by
  unfold query_one
  rw [filter_map_key l f p hf]
  cases hl : l.filter p with
  | nil => rfl
  | cons a t =>
    cases t with
    | nil => rfl
    | cons b t2 => rfl

theorem query_one_sat {α : Type} {l : List α} {p : α → Bool} {x : α}
    (h : query_one l p = some x) : p x = true ∧ x ∈ l := by
  unfold query_one at h
  cases hl : l.filter p with
  | nil =>
    rw [hl] at h
    exact Option.noConfusion h
  | cons a t =>
    cases t with
    | nil =>
      rw [hl] at h
      simp only [Option.some.injEq] at h
      have hx : a ∈ l.filter p := by
        rw [hl]
        exact List.mem_cons_self a []
      rw [← h]
      exact ⟨List.of_mem_filter hx, List.mem_of_mem_filter hx⟩
    | cons b t2 =>
      rw [hl] at h
      exact Option.noConfusion h

/-- C1: for a matched (local record, LDAP entry) pair in the update pass,
if display name, department or email differ, the record is updated and
afterwards those fields hold exactly the directory values (the email being
the normalized directory email) and the updated count grows; if none
differ, the database is left untouched by that iteration and the count is
unchanged. -/
theorem claim_C1 (db : DB) (m : LMap) (c : Nat) (iu : RemoteAccountRec)
    (lu : LdapUser) (prof : ProfileRec) (usr : UserRec)
    (resdb : DB) (resm : LMap) (resc : Nat)
    (hlu : mapLookup m iu.person_id = some lu)
    (hp : query_one db.profiles (fun p => p.user_id == iu.user_id) = some prof)
    (hu : query_one db.users (fun x => x.id == iu.user_id) = some usr)
    (hres : update_step db m c iu = some (resdb, resm, resc)) :
    ((lu.displayName ≠ prof.full_name ∨ iu.department ≠ some lu.department ∨
        ldap_user_get_email lu ≠ usr.email) →
      (query_one resdb.profiles (fun p => p.user_id == iu.user_id)).map
          (fun p => p.full_name) = some lu.displayName ∧
      (query_one resdb.remote_accounts (fun ra => ra.id == iu.id)).map
          (fun ra => ra.department) = some (some lu.department) ∧
      (query_one resdb.users (fun x => x.id == iu.user_id)).map
          (fun x => x.email) = some (ldap_user_get_email lu) ∧
      resc = c + 1) ∧
    ((lu.displayName = prof.full_name ∧ iu.department = some lu.department ∧
        ldap_user_get_email lu = usr.email) →
      resdb = db ∧ resc = c) := by
  unfold update_step at hres
  simp only [hlu, hp, hu] at hres
  constructor
  · intro hd
    rw [if_pos hd] at hres
    unfold _update_invenio_user at hres
    cases hra : query_one db.remote_accounts (fun ra => ra.id == iu.id) with
    | none =>
      rw [hra] at hres
      exact Option.noConfusion hres
    | some ra0 =>
      simp only [hra, Option.some.injEq, Prod.mk.injEq] at hres
      obtain ⟨hdb, -, hc⟩ := hres
      subst hdb
      have hpu : prof.user_id = iu.user_id := by
        have := (query_one_sat hp).1
        simpa using this
      have hui : usr.id = iu.user_id := by
        have := (query_one_sat hu).1
        simpa using this
      refine ⟨?_, ?_, ?_, hc.symm⟩
      · have he : (set_user_email (set_ra_department
            (set_profile_full_name db iu.user_id lu.displayName)
            iu.id lu.department) iu.user_id (ldap_user_get_email lu)).profiles
            = db.profiles.map (fun p =>
                if p.user_id = iu.user_id
                then { p with full_name := lu.displayName } else p) := rfl
        rw [he, query_one_map_f db.profiles _ _
              (fun x => by by_cases hx : x.user_id = iu.user_id <;> simp [hx]),
            hp]
        simp [hpu]
      · have he : (set_user_email (set_ra_department
            (set_profile_full_name db iu.user_id lu.displayName)
            iu.id lu.department) iu.user_id (ldap_user_get_email lu)).remote_accounts
            = db.remote_accounts.map (fun ra =>
                if ra.id = iu.id
                then { ra with department := some lu.department } else ra) := rfl
        have hrai : ra0.id = iu.id := by
          have := (query_one_sat hra).1
          simpa using this
        rw [he, query_one_map_f db.remote_accounts _ _
              (fun x => by by_cases hx : x.id = iu.id <;> simp [hx]),
            hra]
        simp [hrai]
      · have he : (set_user_email (set_ra_department
            (set_profile_full_name db iu.user_id lu.displayName)
            iu.id lu.department) iu.user_id (ldap_user_get_email lu)).users
            = db.users.map (fun x =>
                if x.id = iu.user_id
                then { x with email := ldap_user_get_email lu } else x) := rfl
        rw [he, query_one_map_f db.users _ _
              (fun x => by by_cases hx : x.id = iu.user_id <;> simp [hx]),
            hu]
        simp [hui]
  · intro heq
    have hnd : ¬(lu.displayName ≠ prof.full_name ∨
        iu.department ≠ some lu.department ∨
        ldap_user_get_email lu ≠ usr.email) := by
      simp [heq.1, heq.2.1, heq.2.2]
    rw [if_neg hnd] at hres
    simp only [Option.some.injEq, Prod.mk.injEq] at hres
    obtain ⟨hdb, -, hc⟩ := hres
    exact ⟨hdb.symm, hc.symm⟩

/-- Witness for C1: a record whose display name and department differ from
the directory entry is updated to the directory values. -/
theorem claim_C1_witness :
    (query_one (set_user_email (set_ra_department (set_profile_full_name
          exDb1 5 "Joe Foe") 1 "IT") 5 (ldap_user_get_email exLdapUser1)).profiles
        (fun p => p.user_id == 5)).map (fun p => p.full_name)
      = some "Joe Foe" ∧
    (query_one (set_user_email (set_ra_department (set_profile_full_name
          exDb1 5 "Joe Foe") 1 "IT") 5 (ldap_user_get_email exLdapUser1)).remote_accounts
        (fun ra => ra.id == 1)).map (fun ra => ra.department)
      = some (some "IT") ∧
    (query_one (set_user_email (set_ra_department (set_profile_full_name
          exDb1 5 "Joe Foe") 1 "IT") 5 (ldap_user_get_email exLdapUser1)).users
        (fun x => x.id == 5)).map (fun x => x.email)
      = some (ldap_user_get_email exLdapUser1) ∧
    (1 : Nat) = 0 + 1 :=
  (claim_C1 exDb1 [("101010", exLdapUser1)] 0
    { id := 1, user_id := 5, person_id := "101010", department := some "FAP" }
    exLdapUser1
    { user_id := 5, displayname := "id_5", full_name := "Old Name" }
    { id := 5, email := "joe.foe@cern.ch" }
    (set_user_email (set_ra_department (set_profile_full_name
        exDb1 5 "Joe Foe") 1 "IT") 5 (ldap_user_get_email exLdapUser1))
    (mapErase [("101010", exLdapUser1)] "101010") 1
    (by decide) (by decide) (by decide) (by decide)).1 (by decide)

/-- C8: no enabled code path deletes a local user: `import_users` only
appends to the users table, `update_users` preserves every existing user id
(appending any new ones), and `delete_users` raises `NotImplementedError`
unconditionally before any state change, for either value of `dry_run`. -/
theorem claim_C8 (db : DB) (l : List LdapUser) (r : (Nat × Nat × Nat) × DB)
    (h : update_users db l = some r) (dry_run : Bool) :
    (∃ t, (import_users db l).1.users = db.users ++ t) ∧
    (∃ t, r.2.users.map (fun u => u.id) = db.users.map (fun u => u.id) ++ t) ∧
    delete_users dry_run = Except.error "not yet tested properly" := by
  refine ⟨import_users_go_users l db 0, ?_, rfl⟩
  unfold update_users at h
  split at h
  · simp only [Option.some.injEq] at h
    subst h
    exact ⟨[], by simp⟩
  · cases hupd : update_invenio_users_from_ldap db db.remote_accounts
        (get_ldap_users l).2.1 with
    | none =>
      rw [hupd] at h
      exact Option.noConfusion h
    | some t =>
      obtain ⟨db1, m1, updated⟩ := t
      simp only [hupd, Option.some.injEq] at h
      subst h
      unfold update_invenio_users_from_ldap at hupd
      obtain ⟨a1, -, -, -, -, -⟩ :=
        update_loop_shape db.remote_accounts db (get_ldap_users l).2.1 0
          db1 m1 updated hupd
      obtain ⟨t2, ht⟩ := import_new_go_users (mapValues m1) db1 0
      refine ⟨t2.map (fun u => u.id), ?_⟩
      show (import_new_go (mapValues m1) db1 0).1.users.map (fun u => u.id) = _
      rw [ht]
      simp [a1]

/-- Witness for C8 at a concrete state and listing. -/
theorem claim_C8_witness :
    (∃ t, (import_users exEmptyDb []).1.users = exEmptyDb.users ++ t) ∧
    (∃ t, exEmptyDb.users.map (fun u => u.id)
            = exEmptyDb.users.map (fun u => u.id) ++ t) ∧
    delete_users true = Except.error "not yet tested properly" :=
  claim_C8 exEmptyDb [] (((0, 0, 0), exEmptyDb)) (by decide) true

/-- C5: for every request and regardless of any application state, the
ping endpoint returns HTTP status 200 with the literal body `"OK"`. -/
theorem claim_C5 {α : Type} (app_state : α) :
    ping app_state = { status := 200, body := "OK" } := rfl

/-- Witness for C5 at a concrete application state. -/
theorem claim_C5_witness :
    ping (exEmptyDb, 42) = { status := 200, body := "OK" } :=
  claim_C5 (exEmptyDb, 42)

/-- C6: for every literature record whose metadata has zero eitems (an
empty `eitems.hits` list, or no `eitems` key at all), `transform_record`
and `transform_search_hit` return the parent serializer's output
unchanged. -/
theorem claim_C6 {ε μ ρ : Type} (fmt : ε → ε) (lit : Literature ε μ ρ)
    (h : lit.metadata.eitems = none ∨
      ∃ b, lit.metadata.eitems = some b ∧ b.hits = []) :
    transform_record fmt lit = lit ∧ transform_search_hit fmt lit = lit := by
  obtain ⟨⟨eit, mrest⟩, lrest⟩ := lit
  rcases h with h | ⟨b, hb, hhits⟩
  · simp only at h
    subst h
    exact ⟨rfl, rfl⟩
  · simp only at hb
    subst hb
    obtain ⟨hits, total⟩ := b
    simp only at hhits
    subst hhits
    exact ⟨rfl, rfl⟩

/-- Witness for C6: a record with no eitems key is left unchanged. -/
theorem claim_C6_witness :
    transform_record (fun n => n + 1) exLitNoEitems = exLitNoEitems ∧
    transform_search_hit (fun n => n + 1) exLitNoEitems = exLitNoEitems :=
  claim_C6 (fun n => n + 1) exLitNoEitems (Or.inl rfl)

/-- C7: the paginated LDAP fetch consumes pages exactly while the response
carries a paged-results control with a non-empty cookie; for every finite
sequence of server pages whose last page has no continuation token (and
every earlier page does), it returns the concatenation of all pages'
entries. -/
theorem claim_C7 (pages : List LdapPage)
    (h : pages_well_formed pages = true) :
    get_primary_accounts pages = (pages.map (fun p => p.entries)).flatten := by
  induction pages with
  | nil => simp [pages_well_formed] at h
  | cons p rest ih =>
    cases rest with
    | nil =>
      simp only [pages_well_formed, Bool.not_eq_true'] at h
      simp [get_primary_accounts, h]
    | cons q rest' =>
      simp only [pages_well_formed, Bool.and_eq_true] at h
      rw [show get_primary_accounts (p :: q :: rest') =
            p.entries ++ (if has_more_pages p then
              get_primary_accounts (q :: rest') else []) from rfl,
          if_pos h.1, ih h.2]
      simp

/-- Witness for C7 on a concrete two-page interaction. -/
theorem claim_C7_witness :
    pages_well_formed exPages = true ∧
    get_primary_accounts exPages = (exPages.map (fun p => p.entries)).flatten :=
  ⟨by decide, claim_C7 exPages (by decide)⟩

/-- C9: when anonymization fails with the active-loans error,
`_delete_invenio_user` catches it, queues the warning mail task and
returns `False`; when anonymization succeeds it returns `True`. -/
theorem claim_C9 :
    _delete_invenio_user AnonymizeOutcome.activeLoansError = some (false, true) ∧
    _delete_invenio_user AnonymizeOutcome.ok = some (true, false) :=
  ⟨rfl, rfl⟩

/-- C4 counter-evidence: `import_new_ldap_users` checks
`UserIdentity.id_user` (the Invenio user id) against the LDAP `uidNumber`
instead of `UserIdentity.id`, so an entry whose `uidNumber` already exists
as a user identity id is not skipped: it is imported, its identity row is
inserted and the added count includes it, leaving two identities with the
same id. -/
theorem claim_C4_code_bug :
    (exDbC4.identities.any (fun i => i.id == exLdapC4.uidNumber)) = true ∧
    user_identity_exists exDbC4 exLdapC4.uidNumber = false ∧
    (import_new_ldap_users exDbC4 [exLdapC4]).2 = 1 ∧
    (import_new_ldap_users exDbC4 [exLdapC4]).1.identities.map (fun i => i.id)
      = ["100000", "100000"] := by
  refine ⟨rfl, rfl, rfl, ?_⟩
  decide

/-! ### Helper lemmas about the LDAP user map -/

theorem mem_of_mapLookup :
    ∀ {m : LMap} {k : String} {v : LdapUser},
      mapLookup m k = some v → (k, v) ∈ m := by
  intro m
  induction m with
  | nil => intro k v h; exact Option.noConfusion h
  | cons e rest ih =>
    intro k v h
    obtain ⟨k', v'⟩ := e
    unfold mapLookup at h
    by_cases hk : k' = k
    · rw [if_pos hk] at h
      simp only [Option.some.injEq] at h
      subst hk
      subst h
      exact List.mem_cons_self _ _
    · rw [if_neg hk] at h
      exact List.mem_cons_of_mem _ (ih h)

theorem mapLookup_of_mem :
    ∀ {m : LMap} {k : String} {v : LdapUser},
      (k, v) ∈ m → mapKeysNodup m → mapLookup m k = some v := by
  intro m
  induction m with
  | nil => intro k v h _; cases h
  | cons e rest ih =>
    intro k v h hnd
    obtain ⟨k', v'⟩ := e
    simp only [mapKeysNodup, List.map_cons, List.nodup_cons] at hnd
    rcases List.mem_cons.mp h with he | ht
    · obtain ⟨rfl, rfl⟩ := Prod.mk.injEq .. ▸ he
      simp [mapLookup]
    · have hk : k' ≠ k := by
        intro he
        subst he
        exact hnd.1 (List.mem_map_of_mem (fun e => e.1) ht)
      simp only [mapLookup, if_neg hk]
      exact ih ht hnd.2

theorem mapErase_of_lookup_none :
    ∀ {m : LMap} {k : String}, mapLookup m k = none → mapErase m k = m := by
  intro m
  induction m with
  | nil => intro k _; rfl
  | cons e rest ih =>
    intro k h
    obtain ⟨k', v'⟩ := e
    unfold mapLookup at h
    by_cases hk : k' = k
    · rw [if_pos hk] at h
      exact Option.noConfusion h
    · rw [if_neg hk] at h
      simp only [mapErase, if_neg hk]
      rw [ih h]

theorem mapErase_sub :
    ∀ {m : LMap} {k : String} {e : String × LdapUser},
      e ∈ mapErase m k → e ∈ m := by
  intro m
  induction m with
  | nil => intro k e h; cases h
  | cons e0 rest ih =>
    intro k e h
    obtain ⟨k', v'⟩ := e0
    unfold mapErase at h
    by_cases hk : k' = k
    · rw [if_pos hk] at h
      exact List.mem_cons_of_mem _ h
    · rw [if_neg hk] at h
      rcases List.mem_cons.mp h with he | ht
      · exact he ▸ List.mem_cons_self _ _
      · exact List.mem_cons_of_mem _ (ih ht)

theorem mapErase_keys_sub :
    ∀ {m : LMap} {k k' : String},
      k' ∈ (mapErase m k).map (fun e => e.1) → k' ∈ m.map (fun e => e.1) := by
  intro m k k' h
  simp only [List.mem_map] at h ⊢
  obtain ⟨e, he, rfl⟩ := h
  exact ⟨e, mapErase_sub he, rfl⟩

theorem mapKeysNodup_erase :
    ∀ {m : LMap} {k : String}, mapKeysNodup m → mapKeysNodup (mapErase m k) := by
  intro m
  induction m with
  | nil => intro k h; exact h
  | cons e rest ih =>
    intro k hnd
    obtain ⟨k', v'⟩ := e
    simp only [mapKeysNodup, List.map_cons, List.nodup_cons] at hnd
    unfold mapErase
    by_cases hk : k' = k
    · rw [if_pos hk]
      exact hnd.2
    · rw [if_neg hk]
      simp only [mapKeysNodup, List.map_cons, List.nodup_cons]
      exact ⟨fun hmem => hnd.1 (mapErase_keys_sub hmem), ih hnd.2⟩

theorem mapLookup_eq_none_of_not_key :
    ∀ {m : LMap} {k : String},
      k ∉ m.map (fun e => e.1) → mapLookup m k = none := by
  intro m k h
  cases hl : mapLookup m k with
  | none => rfl
  | some v =>
    exact absurd (List.mem_map_of_mem (fun e => e.1) (mem_of_mapLookup hl)) h

theorem mapLookup_erase :
    ∀ {m : LMap} {k k' : String}, mapKeysNodup m →
      mapLookup (mapErase m k) k' = if k' = k then none else mapLookup m k' := by
  intro m
  induction m with
  | nil =>
    intro k k' _
    by_cases hk : k' = k <;> simp [mapErase, mapLookup, hk]
  | cons e rest ih =>
    intro k k' hnd
    obtain ⟨k0, v0⟩ := e
    simp only [mapKeysNodup, List.map_cons, List.nodup_cons] at hnd
    unfold mapErase
    by_cases h0 : k0 = k
    · rw [if_pos h0]
      by_cases hk : k' = k
      · rw [if_pos hk]
        exact mapLookup_eq_none_of_not_key (by rw [hk, ← h0]; exact hnd.1)
      · rw [if_neg hk]
        have h1 : k0 ≠ k' := fun h => hk (h.symm.trans h0)
        simp only [mapLookup, if_neg h1]
    · rw [if_neg h0]
      simp only [mapLookup]
      by_cases h1 : k0 = k'
      · rw [if_pos h1, if_pos h1, if_neg (fun h => h0 ((h1.trans h)))]
      · rw [if_neg h1, if_neg h1, ih hnd.2]

theorem mapErase_mem_of_ne :
    ∀ {m : LMap} {k : String} {e : String × LdapUser},
      e ∈ m → e.1 ≠ k → e ∈ mapErase m k := by
  intro m
  induction m with
  | nil => intro k e h _; cases h
  | cons e0 rest ih =>
    intro k e h hne
    obtain ⟨k0, v0⟩ := e0
    unfold mapErase
    by_cases h0 : k0 = k
    · rw [if_pos h0]
      rcases List.mem_cons.mp h with he | ht
      · exact absurd (by rw [he, h0]) hne
      · exact ht
    · rw [if_neg h0]
      rcases List.mem_cons.mp h with he | ht
      · exact he ▸ List.mem_cons_self _ _
      · exact List.mem_cons_of_mem _ (ih ht hne)

theorem mapInsert_mem :
    ∀ {m : LMap} {k : String} {v : LdapUser} {e : String × LdapUser},
      e ∈ mapInsert m k v → e ∈ m ∨ e = (k, v) := by
  intro m
  induction m with
  | nil =>
    intro k v e h
    simp only [mapInsert] at h
    exact Or.inr (List.mem_singleton.mp h)
  | cons e0 rest ih =>
    intro k v e h
    obtain ⟨k0, v0⟩ := e0
    unfold mapInsert at h
    by_cases h0 : k0 = k
    · rw [if_pos h0] at h
      rcases List.mem_cons.mp h with he | ht
      · exact Or.inr he
      · exact Or.inl (List.mem_cons_of_mem _ ht)
    · rw [if_neg h0] at h
      rcases List.mem_cons.mp h with he | ht
      · exact Or.inl (he ▸ List.mem_cons_self _ _)
      · rcases ih ht with hm | he
        · exact Or.inl (List.mem_cons_of_mem _ hm)
        · exact Or.inr he

theorem mapInsert_keys_sub :
    ∀ {m : LMap} {k k' : String} {v : LdapUser},
      k' ∈ (mapInsert m k v).map (fun e => e.1) →
      k' ∈ m.map (fun e => e.1) ∨ k' = k := by
  intro m k k' v h
  simp only [List.mem_map] at h
  obtain ⟨e, he, rfl⟩ := h
  rcases mapInsert_mem he with hm | hkv
  · exact Or.inl (List.mem_map_of_mem (fun e => e.1) hm)
  · exact Or.inr (by rw [hkv])

theorem mapKeysNodup_insert :
    ∀ {m : LMap} {k : String} {v : LdapUser},
      mapKeysNodup m → mapKeysNodup (mapInsert m k v) := by
  intro m
  induction m with
  | nil => intro k v _; simp [mapKeysNodup, mapInsert]
  | cons e0 rest ih =>
    intro k v hnd
    obtain ⟨k0, v0⟩ := e0
    simp only [mapKeysNodup, List.map_cons, List.nodup_cons] at hnd
    unfold mapInsert
    by_cases h0 : k0 = k
    · rw [if_pos h0]
      simp only [mapKeysNodup, List.map_cons, List.nodup_cons]
      exact ⟨h0 ▸ hnd.1, hnd.2⟩
    · rw [if_neg h0]
      simp only [mapKeysNodup, List.map_cons, List.nodup_cons]
      refine ⟨fun hmem => ?_, ih hnd.2⟩
      rcases mapInsert_keys_sub hmem with hm | hk
      · exact hnd.1 hm
      · exact h0 hk

/-- Invariants of the map built by `get_ldap_users`: keys are unique and
each entry is keyed by its value's employee id. -/
theorem get_ldap_users_go_inv :
    ∀ (l : List LdapUser) (m : LMap) (s : List String),
      mapKeysNodup m → (∀ e ∈ m, e.1 = e.2.employeeID) →
      mapKeysNodup (get_ldap_users_go l m s).1 ∧
      ∀ e ∈ (get_ldap_users_go l m s).1, e.1 = e.2.employeeID := by
  intro l
  induction l with
  | nil => intro m s h1 h2; exact ⟨h1, h2⟩
  | cons u rest ih =>
    intro m s h1 h2
    cases hm : u.mail with
    | none =>
      simp only [get_ldap_users_go, hm]
      exact ih m s h1 h2
    | some v =>
      simp only [get_ldap_users_go, hm]
      by_cases he : ldap_user_get_email u = ""
      · rw [if_pos he]; exact ih m s h1 h2
      · rw [if_neg he]
        by_cases hs : ldap_user_get_email u ∈ s
        · rw [if_pos hs]; exact ih m s h1 h2
        · rw [if_neg hs]
          refine ih _ _ (mapKeysNodup_insert h1) ?_
          intro e hmem
          rcases mapInsert_mem hmem with hm2 | hkv
          · exact h2 e hm2
          · rw [hkv]

/-! ### More query_one lemmas -/

theorem query_one_append_right {α : Type} (l1 l2 : List α) (p : α → Bool)
    (h : ∀ x ∈ l2, p x = false) :
    query_one (l1 ++ l2) p = query_one l1 p := by
  have h2 : l2.filter p = [] :=
    List.filter_eq_nil_iff.mpr (fun a ha => by simp [h a ha])
  unfold query_one
  rw [List.filter_append, h2, List.append_nil]

theorem query_one_append_left {α : Type} (l1 l2 : List α) (p : α → Bool)
    (h : ∀ x ∈ l1, p x = false) :
    query_one (l1 ++ l2) p = query_one l2 p := by
  have h1 : l1.filter p = [] :=
    List.filter_eq_nil_iff.mpr (fun a ha => by simp [h a ha])
  unfold query_one
  rw [List.filter_append, h1, List.nil_append]

theorem filter_key_self {α : Type} :
    ∀ (l : List α) (key : α → Nat) (x : α),
      x ∈ l → (l.map key).Nodup →
      l.filter (fun y => key y == key x) = [x] := by
  intro l
  induction l with
  | nil => intro key x hx _; cases hx
  | cons a t ih =>
    intro key x hx hnd
    simp only [List.map_cons, List.nodup_cons] at hnd
    rcases List.mem_cons.mp hx with hax | hxt
    · rw [hax]
      rw [List.filter_cons_of_pos (by simp)]
      have ht : t.filter (fun y => key y == key a) = [] :=
        List.filter_eq_nil_iff.mpr (fun y hy hbeq => by
          have he : key y = key a := by simpa using hbeq
          exact hnd.1 (he ▸ List.mem_map_of_mem key hy))
      rw [ht]
    · have hka : key a ≠ key x := by
        intro he
        exact hnd.1 (he ▸ List.mem_map_of_mem key hxt)
      rw [List.filter_cons_of_neg (by simp [hka])]
      exact ih key x hxt hnd.2

theorem query_one_key_self {α : Type} (l : List α) (key : α → Nat) (x : α)
    (hx : x ∈ l) (hnd : (l.map key).Nodup) :
    query_one l (fun y => key y == key x) = some x := by
  unfold query_one
  rw [filter_key_self l key x hx hnd]

/-! ### Step-level lemmas for the update pass -/

theorem query_map_invariant {α : Type} (l : List α) (f : α → α) (p : α → Bool)
    (hf : ∀ x, p (f x) = p x) (hfix : ∀ x, p x = true → f x = x) :
    query_one (l.map f) p = query_one l p := by
  rw [query_one_map_f l f p hf]
  cases hq : query_one l p with
  | none => rfl
  | some x => simp [hfix x (query_one_sat hq).1]

/-- After `_update_invenio_user` runs for the matched pair, the three
compared fields hold the LDAP values. -/
theorem synced_after_update (db : DB) (iu : RemoteAccountRec) (lu : LdapUser)
    (prof : ProfileRec) (usr : UserRec) (ra0 : RemoteAccountRec)
    (hq1 : query_one db.profiles (fun p => p.user_id == iu.user_id) = some prof)
    (hq3 : query_one db.users (fun x => x.id == iu.user_id) = some usr)
    (hra : query_one db.remote_accounts (fun ra => ra.id == iu.id) = some ra0) :
    SyncedAt (set_user_email (set_ra_department (set_profile_full_name db
      iu.user_id lu.displayName) iu.id lu.department) iu.user_id
      (ldap_user_get_email lu)) iu.user_id iu.id lu := by
  have hpu : prof.user_id = iu.user_id := by
    have := (query_one_sat hq1).1
    simpa using this
  have hui : usr.id = iu.user_id := by
    have := (query_one_sat hq3).1
    simpa using this
  have hrai : ra0.id = iu.id := by
    have := (query_one_sat hra).1
    simpa using this
  refine ⟨?_, ?_, ?_⟩
  · have he : (set_user_email (set_ra_department
        (set_profile_full_name db iu.user_id lu.displayName)
        iu.id lu.department) iu.user_id (ldap_user_get_email lu)).profiles
        = db.profiles.map (fun p =>
            if p.user_id = iu.user_id
            then { p with full_name := lu.displayName } else p) := rfl
    rw [he, query_one_map_f db.profiles _ _
          (fun x => by by_cases hx : x.user_id = iu.user_id <;> simp [hx]),
        hq1]
    simp [hpu]
  · have he : (set_user_email (set_ra_department
        (set_profile_full_name db iu.user_id lu.displayName)
        iu.id lu.department) iu.user_id (ldap_user_get_email lu)).remote_accounts
        = db.remote_accounts.map (fun ra =>
            if ra.id = iu.id
            then { ra with department := some lu.department } else ra) := rfl
    rw [he, query_one_map_f db.remote_accounts _ _
          (fun x => by by_cases hx : x.id = iu.id <;> simp [hx]),
        hra]
    simp [hrai]
  · have he : (set_user_email (set_ra_department
        (set_profile_full_name db iu.user_id lu.displayName)
        iu.id lu.department) iu.user_id (ldap_user_get_email lu)).users
        = db.users.map (fun x =>
            if x.id = iu.user_id
            then { x with email := ldap_user_get_email lu } else x) := rfl
    rw [he, query_one_map_f db.users _ _
          (fun x => by by_cases hx : x.id = iu.user_id <;> simp [hx]),
        hq3]
    simp [hui]

theorem update_step_map {db : DB} {m : LMap} {c : Nat} {iu : RemoteAccountRec}
    {db' : DB} {m' : LMap} {c' : Nat}
    (h : update_step db m c iu = some (db', m', c')) :
    m' = mapErase m iu.person_id := by
  unfold update_step at h
  cases hl : mapLookup m iu.person_id with
  | none =>
    simp only [hl, Option.some.injEq, Prod.mk.injEq] at h
    exact h.2.1.symm
  | some lu =>
    simp only [hl] at h
    cases hp : query_one db.profiles (fun p => p.user_id == iu.user_id) with
    | none =>
      simp only [hp] at h
      exact Option.noConfusion h
    | some prof =>
      simp only [hp] at h
      cases hu : query_one db.users (fun x => x.id == iu.user_id) with
      | none =>
        simp only [hu] at h
        exact Option.noConfusion h
      | some usr =>
        simp only [hu] at h
        by_cases hch : (lu.displayName ≠ prof.full_name ∨
            iu.department ≠ some lu.department ∨
            ldap_user_get_email lu ≠ usr.email)
        · rw [if_pos hch] at h
          unfold _update_invenio_user at h
          cases hra : query_one db.remote_accounts (fun ra => ra.id == iu.id) with
          | none =>
            simp only [hra] at h
            exact Option.noConfusion h
          | some ra0 =>
            simp only [hra, Option.some.injEq, Prod.mk.injEq] at h
            exact h.2.1.symm
        · rw [if_neg hch] at h
          simp only [Option.some.injEq, Prod.mk.injEq] at h
          exact h.2.1.symm

/-- Any successful `update_step` leaves the database untouched, or rewrites
it with `_update_invenio_user` for the looked-up LDAP entry. -/
theorem update_step_cases {db : DB} {m : LMap} {c : Nat} {iu : RemoteAccountRec}
    {db' : DB} {m' : LMap} {c' : Nat}
    (h : update_step db m c iu = some (db', m', c')) :
    db' = db ∨ ∃ lu prof usr ra0,
      mapLookup m iu.person_id = some lu ∧
      query_one db.profiles (fun p => p.user_id == iu.user_id) = some prof ∧
      query_one db.users (fun x => x.id == iu.user_id) = some usr ∧
      query_one db.remote_accounts (fun ra => ra.id == iu.id) = some ra0 ∧
      db' = set_user_email (set_ra_department (set_profile_full_name db
        iu.user_id lu.displayName) iu.id lu.department) iu.user_id
        (ldap_user_get_email lu) := by
  unfold update_step at h
  cases hl : mapLookup m iu.person_id with
  | none =>
    simp only [hl, Option.some.injEq, Prod.mk.injEq] at h
    exact Or.inl h.1.symm
  | some lu =>
    simp only [hl] at h
    cases hp : query_one db.profiles (fun p => p.user_id == iu.user_id) with
    | none =>
      simp only [hp] at h
      exact Option.noConfusion h
    | some prof =>
      simp only [hp] at h
      cases hu : query_one db.users (fun x => x.id == iu.user_id) with
      | none =>
        simp only [hu] at h
        exact Option.noConfusion h
      | some usr =>
        simp only [hu] at h
        by_cases hch : (lu.displayName ≠ prof.full_name ∨
            iu.department ≠ some lu.department ∨
            ldap_user_get_email lu ≠ usr.email)
        · rw [if_pos hch] at h
          unfold _update_invenio_user at h
          cases hra : query_one db.remote_accounts (fun ra => ra.id == iu.id) with
          | none =>
            simp only [hra] at h
            exact Option.noConfusion h
          | some ra0 =>
            simp only [hra, Option.some.injEq, Prod.mk.injEq] at h
            exact Or.inr ⟨lu, prof, usr, ra0, rfl, rfl, rfl, rfl, h.1.symm⟩
        · rw [if_neg hch] at h
          simp only [Option.some.injEq, Prod.mk.injEq] at h
          exact Or.inl h.1.symm

theorem update_step_ra_mem {db : DB} {m : LMap} {c : Nat}
    {iu : RemoteAccountRec} {db' : DB} {m' : LMap} {c' : Nat}
    (h : update_step db m c iu = some (db', m', c')) :
    ∀ ra ∈ db.remote_accounts, ra.id ≠ iu.id → ra ∈ db'.remote_accounts := by
  intro ra hra hne
  rcases update_step_cases h with rfl | ⟨lu, prof, usr, ra0, -, -, -, -, hdb⟩
  · exact hra
  · subst hdb
    have he : (set_user_email (set_ra_department
        (set_profile_full_name db iu.user_id lu.displayName)
        iu.id lu.department) iu.user_id (ldap_user_get_email lu)).remote_accounts
        = db.remote_accounts.map (fun x =>
            if x.id = iu.id
            then { x with department := some lu.department } else x) := rfl
    rw [he]
    have : (if ra.id = iu.id
        then { ra with department := some lu.department } else ra) = ra := by
      rw [if_neg hne]
    exact this ▸ List.mem_map_of_mem _ hra

theorem update_step_preserves_synced {db : DB} {m : LMap} {c : Nat}
    {iu : RemoteAccountRec} {db' : DB} {m' : LMap} {c' : Nat}
    {uid raid : Nat} {lu0 : LdapUser}
    (h : update_step db m c iu = some (db', m', c'))
    (h1 : iu.user_id ≠ uid) (h2 : iu.id ≠ raid)
    (hs : SyncedAt db uid raid lu0) : SyncedAt db' uid raid lu0 := by
  rcases update_step_cases h with rfl | ⟨lu, prof, usr, ra0, -, -, -, -, hdb⟩
  · exact hs
  · subst hdb
    obtain ⟨s1, s2, s3⟩ := hs
    refine ⟨?_, ?_, ?_⟩
    · have he : (set_user_email (set_ra_department
          (set_profile_full_name db iu.user_id lu.displayName)
          iu.id lu.department) iu.user_id (ldap_user_get_email lu)).profiles
          = db.profiles.map (fun p =>
              if p.user_id = iu.user_id
              then { p with full_name := lu.displayName } else p) := rfl
      rw [he, query_map_invariant db.profiles _ _
            (fun x => by by_cases hx : x.user_id = iu.user_id <;> simp [hx])
            (fun x hx => by
              have hxu : x.user_id = uid := by simpa using hx
              rw [if_neg (fun hc => h1 (hc.symm.trans hxu))])]
      exact s1
    · have he : (set_user_email (set_ra_department
          (set_profile_full_name db iu.user_id lu.displayName)
          iu.id lu.department) iu.user_id (ldap_user_get_email lu)).remote_accounts
          = db.remote_accounts.map (fun x =>
              if x.id = iu.id
              then { x with department := some lu.department } else x) := rfl
      rw [he, query_map_invariant db.remote_accounts _ _
            (fun x => by by_cases hx : x.id = iu.id <;> simp [hx])
            (fun x hx => by
              have hxi : x.id = raid := by simpa using hx
              rw [if_neg (fun hc => h2 (hc.symm.trans hxi))])]
      exact s2
    · have he : (set_user_email (set_ra_department
          (set_profile_full_name db iu.user_id lu.displayName)
          iu.id lu.department) iu.user_id (ldap_user_get_email lu)).users
          = db.users.map (fun x =>
              if x.id = iu.user_id
              then { x with email := ldap_user_get_email lu } else x) := rfl
      rw [he, query_map_invariant db.users _ _
            (fun x => by by_cases hx : x.id = iu.user_id <;> simp [hx])
            (fun x hx => by
              have hxu : x.id = uid := by simpa using hx
              rw [if_neg (fun hc => h1 (hc.symm.trans hxu))])]
      exact s3

/-! ### Loop-level lemmas for the update pass -/

theorem update_loop_map :
    ∀ (ius : List RemoteAccountRec) (db : DB) (m : LMap) (c : Nat)
      (db' : DB) (m' : LMap) (c' : Nat),
      update_loop ius db m c = some (db', m', c') → mapKeysNodup m →
      mapKeysNodup m' ∧ (∀ e ∈ m', e ∈ m) ∧
      (∀ e ∈ m', ∀ iu ∈ ius, e.1 ≠ iu.person_id) := by
  intro ius
  induction ius with
  | nil =>
    intro db m c db' m' c' h hnd
    simp only [update_loop, Option.some.injEq, Prod.mk.injEq] at h
    obtain ⟨-, h2, -⟩ := h
    subst h2
    exact ⟨hnd, fun e he => he, fun e _ iu hiu => absurd hiu (List.not_mem_nil iu)⟩
  | cons iu0 rest ih =>
    intro db m c db' m' c' h hnd
    unfold update_loop at h
    cases hs : update_step db m c iu0 with
    | none =>
      simp only [hs] at h
      exact Option.noConfusion h
    | some t =>
      obtain ⟨db1, m1, c1⟩ := t
      simp only [hs] at h
      have hm1 : m1 = mapErase m iu0.person_id := update_step_map hs
      subst hm1
      obtain ⟨n1, n2, n3⟩ :=
        ih db1 _ c1 db' m' c' h (mapKeysNodup_erase hnd)
      refine ⟨n1, fun e he => mapErase_sub (n2 e he), fun e he iu' hiu' => ?_⟩
      rcases List.mem_cons.mp hiu' with h' | h'
      · subst h'
        intro hk
        have hnone : mapLookup (mapErase m iu'.person_id) e.1 = none := by
          rw [mapLookup_erase hnd, if_pos hk]
        have hsome : mapLookup (mapErase m iu'.person_id) e.1 = some e.2 :=
          mapLookup_of_mem (n2 e he) (mapKeysNodup_erase hnd)
        rw [hnone] at hsome
        exact Option.noConfusion hsome
      · exact n3 e he iu' h'

theorem update_loop_keep :
    ∀ (ius : List RemoteAccountRec) (db : DB) (m : LMap) (c : Nat)
      (db' : DB) (m' : LMap) (c' : Nat),
      update_loop ius db m c = some (db', m', c') →
      ∀ e ∈ m, (∀ iu ∈ ius, e.1 ≠ iu.person_id) → e ∈ m' := by
  intro ius
  induction ius with
  | nil =>
    intro db m c db' m' c' h e he _
    simp only [update_loop, Option.some.injEq, Prod.mk.injEq] at h
    obtain ⟨-, h2, -⟩ := h
    exact h2 ▸ he
  | cons iu0 rest ih =>
    intro db m c db' m' c' h e he hkeys
    unfold update_loop at h
    cases hs : update_step db m c iu0 with
    | none =>
      simp only [hs] at h
      exact Option.noConfusion h
    | some t =>
      obtain ⟨db1, m1, c1⟩ := t
      simp only [hs] at h
      have hm1 : m1 = mapErase m iu0.person_id := update_step_map hs
      subst hm1
      exact ih db1 _ c1 db' m' c' h e
        (mapErase_mem_of_ne he (hkeys iu0 (List.mem_cons_self _ _)))
        (fun iu' hiu' => hkeys iu' (List.mem_cons_of_mem _ hiu'))

theorem update_loop_preserves_synced :
    ∀ (ius : List RemoteAccountRec) (db : DB) (m : LMap) (c : Nat)
      (db' : DB) (m' : LMap) (c' : Nat) (uid raid : Nat) (lu0 : LdapUser),
      update_loop ius db m c = some (db', m', c') →
      (∀ iu ∈ ius, iu.user_id ≠ uid) →
      (∀ iu ∈ ius, iu.id ≠ raid) →
      SyncedAt db uid raid lu0 → SyncedAt db' uid raid lu0 := by
  intro ius
  induction ius with
  | nil =>
    intro db m c db' m' c' uid raid lu0 h _ _ hs
    simp only [update_loop, Option.some.injEq, Prod.mk.injEq] at h
    obtain ⟨h1, -, -⟩ := h
    exact h1 ▸ hs
  | cons iu0 rest ih =>
    intro db m c db' m' c' uid raid lu0 h hu hid hs
    unfold update_loop at h
    cases hst : update_step db m c iu0 with
    | none =>
      simp only [hst] at h
      exact Option.noConfusion h
    | some t =>
      obtain ⟨db1, m1, c1⟩ := t
      simp only [hst] at h
      exact ih db1 m1 c1 db' m' c' uid raid lu0 h
        (fun iu' hiu' => hu iu' (List.mem_cons_of_mem _ hiu'))
        (fun iu' hiu' => hid iu' (List.mem_cons_of_mem _ hiu'))
        (update_step_preserves_synced hst
          (hu iu0 (List.mem_cons_self _ _))
          (hid iu0 (List.mem_cons_self _ _)) hs)

/-- A fully synchronized database passes the update loop untouched with a
zero count. -/
theorem update_loop_synced :
    ∀ (ius : List RemoteAccountRec) (db : DB) (m : LMap) (c : Nat),
      mapKeysNodup m →
      (∀ iu ∈ ius, ∀ lu, mapLookup m iu.person_id = some lu →
        SyncedAt db iu.user_id iu.id lu ∧ iu.department = some lu.department) →
      ∃ m', update_loop ius db m c = some (db, m', c) := by
  intro ius
  induction ius with
  | nil =>
    intro db m c _ _
    exact ⟨m, rfl⟩
  | cons iu0 rest ih =>
    intro db m c hnd hsync
    have htail : ∀ iu ∈ rest, ∀ lu,
        mapLookup (mapErase m iu0.person_id) iu.person_id = some lu →
        SyncedAt db iu.user_id iu.id lu ∧ iu.department = some lu.department := by
      intro iu hiu lu hlu
      rw [mapLookup_erase hnd] at hlu
      by_cases hk : iu.person_id = iu0.person_id
      · rw [if_pos hk] at hlu
        exact Option.noConfusion hlu
      · rw [if_neg hk] at hlu
        exact hsync iu (List.mem_cons_of_mem _ hiu) lu hlu
    obtain ⟨m2, hm2⟩ := ih db (mapErase m iu0.person_id) c
      (mapKeysNodup_erase hnd) htail
    cases hl : mapLookup m iu0.person_id with
    | none =>
      have hstep : update_step db m c iu0
          = some (db, mapErase m iu0.person_id, c) := by
        unfold update_step
        simp only [hl]
      refine ⟨m2, ?_⟩
      unfold update_loop
      rw [hstep]
      exact hm2
    | some lu =>
      obtain ⟨⟨s1, s2, s3⟩, hdep⟩ := hsync iu0 (List.mem_cons_self _ _) lu hl
      cases hq1 : query_one db.profiles (fun p => p.user_id == iu0.user_id) with
      | none =>
        rw [hq1] at s1
        exact Option.noConfusion s1
      | some prof =>
        cases hq3 : query_one db.users (fun x => x.id == iu0.user_id) with
        | none =>
          rw [hq3] at s3
          exact Option.noConfusion s3
        | some usr =>
          rw [hq1] at s1
          rw [hq3] at s3
          simp only [Option.map_some', Option.some.injEq] at s1 s3
          have hstep : update_step db m c iu0
              = some (db, mapErase m iu0.person_id, c) := by
            unfold update_step
            simp only [hl, hq1, hq3]
            rw [if_neg (by simp [s1, s3, hdep])]
          refine ⟨m2, ?_⟩
          unfold update_loop
          rw [hstep]
          exact hm2

/-- Postcondition of the update pass: every remote-account snapshot entry
whose person id was in the map is synchronized with its LDAP entry in the
resulting database. -/
theorem update_loop_post :
    ∀ (ius : List RemoteAccountRec) (db : DB) (m : LMap) (c : Nat)
      (db' : DB) (m' : LMap) (c' : Nat),
      update_loop ius db m c = some (db', m', c') →
      mapKeysNodup m →
      (ius.map (fun iu => iu.person_id)).Nodup →
      (ius.map (fun iu => iu.user_id)).Nodup →
      (ius.map (fun iu => iu.id)).Nodup →
      (∀ iu ∈ ius, iu ∈ db.remote_accounts) →
      (db.remote_accounts.map (fun ra => ra.id)).Nodup →
      ∀ iu ∈ ius, ∀ lu, mapLookup m iu.person_id = some lu →
        SyncedAt db' iu.user_id iu.id lu := by
  intro ius
  induction ius with
  | nil =>
    intro db m c db' m' c' _ _ _ _ _ _ _ iu hiu
    cases hiu
  | cons iu0 rest ih =>
    intro db m c db' m' c' h hnd hp hu hid hmem hraid
    unfold update_loop at h
    cases hs : update_step db m c iu0 with
    | none =>
      simp only [hs] at h
      exact Option.noConfusion h
    | some t =>
      obtain ⟨db1, m1, c1⟩ := t
      simp only [hs] at h
      have hm1 : m1 = mapErase m iu0.person_id := update_step_map hs
      simp only [List.map_cons, List.nodup_cons] at hp hu hid
      have htailu : ∀ iu' ∈ rest, iu'.user_id ≠ iu0.user_id := by
        intro iu' hiu' he
        exact hu.1 (he ▸ List.mem_map_of_mem (fun x => x.user_id) hiu')
      have htaili : ∀ iu' ∈ rest, iu'.id ≠ iu0.id := by
        intro iu' hiu' he
        exact hid.1 (he ▸ List.mem_map_of_mem (fun x => x.id) hiu')
      intro iu hiu lu hlu
      rcases List.mem_cons.mp hiu with heq | hrest
      · subst heq
        have hsync1 : SyncedAt db1 iu.user_id iu.id lu := by
          unfold update_step at hs
          simp only [hlu] at hs
          cases hq1 : query_one db.profiles (fun p => p.user_id == iu.user_id) with
          | none =>
            simp only [hq1] at hs
            exact Option.noConfusion hs
          | some prof =>
            simp only [hq1] at hs
            cases hq3 : query_one db.users (fun x => x.id == iu.user_id) with
            | none =>
              simp only [hq3] at hs
              exact Option.noConfusion hs
            | some usr =>
              simp only [hq3] at hs
              by_cases hch : (lu.displayName ≠ prof.full_name ∨
                  iu.department ≠ some lu.department ∨
                  ldap_user_get_email lu ≠ usr.email)
              · rw [if_pos hch] at hs
                unfold _update_invenio_user at hs
                cases hra : query_one db.remote_accounts
                    (fun ra => ra.id == iu.id) with
                | none =>
                  simp only [hra] at hs
                  exact Option.noConfusion hs
                | some ra0 =>
                  simp only [hra, Option.some.injEq, Prod.mk.injEq] at hs
                  obtain ⟨h1, -, -⟩ := hs
                  rw [← h1]
                  exact synced_after_update db iu lu prof usr ra0 hq1 hq3 hra
              · rw [if_neg hch] at hs
                simp only [Option.some.injEq, Prod.mk.injEq] at hs
                obtain ⟨h1, -, -⟩ := hs
                push_neg at hch
                obtain ⟨c1eq, c2eq, c3eq⟩ := hch
                rw [← h1]
                refine ⟨?_, ?_, ?_⟩
                · rw [hq1]
                  simp [c1eq.symm]
                · rw [query_one_key_self db.remote_accounts
                    (fun ra => ra.id) iu (hmem iu (List.mem_cons_self _ _)) hraid]
                  simp [c2eq]
                · rw [hq3]
                  simp [c3eq.symm]
        exact update_loop_preserves_synced rest db1 m1 c1 db' m' c'
          iu.user_id iu.id lu h htailu htaili hsync1
      · have hlu1 : mapLookup m1 iu.person_id = some lu := by
          rw [hm1, mapLookup_erase hnd]
          have hne : iu.person_id ≠ iu0.person_id := by
            intro he
            exact hp.1 (he ▸ List.mem_map_of_mem (fun x => x.person_id) hrest)
          rw [if_neg hne]
          exact hlu
        have hmem1 : ∀ iu' ∈ rest, iu' ∈ db1.remote_accounts := by
          intro iu' hiu'
          exact update_step_ra_mem hs iu'
            (hmem iu' (List.mem_cons_of_mem _ hiu')) (htaili iu' hiu')
        have hraid1 : (db1.remote_accounts.map (fun ra => ra.id)).Nodup := by
          obtain ⟨-, -, sh3, -, -, -⟩ := update_step_shape hs
          have he : db1.remote_accounts.map (fun ra => ra.id)
              = db.remote_accounts.map (fun ra => ra.id) := by
            have hc := congrArg (List.map (fun t :
                Nat × Nat × String => t.1)) sh3
            simpa [List.map_map, Function.comp] using hc
          rw [he]
          exact hraid
        have hnd1 : mapKeysNodup m1 := by
          rw [hm1]
          exact mapKeysNodup_erase hnd
        exact ih db1 m1 c1 db' m' c' h hnd1 hp.2 hu.2 hid.2 hmem1 hraid1
          iu hrest lu hlu1

/-! ### Lemmas for the import pass -/

theorem import_new_go_ext :
    ∀ (l : List LdapUser) (db : DB) (c : Nat),
      ∃ t1 t2 t3 t4,
        (import_new_go l db c).1.users = db.users ++ t1 ∧
        (import_new_go l db c).1.profiles = db.profiles ++ t2 ∧
        (import_new_go l db c).1.remote_accounts = db.remote_accounts ++ t3 ∧
        (import_new_go l db c).1.identities = db.identities ++ t4 ∧
        (∀ x ∈ t1, db.next_user_id ≤ x.id) ∧
        (∀ p ∈ t2, db.next_user_id ≤ p.user_id) ∧
        (∀ ra ∈ t3, db.next_user_id ≤ ra.user_id ∧ db.next_ra_id ≤ ra.id) ∧
        db.next_user_id ≤ (import_new_go l db c).1.next_user_id ∧
        db.next_ra_id ≤ (import_new_go l db c).1.next_ra_id := by
  intro l
  induction l with
  | nil =>
    intro db c
    exact ⟨[], [], [], [], by simp [import_new_go], by simp [import_new_go],
      by simp [import_new_go], by simp [import_new_go],
      by simp, by simp, by simp, Nat.le_refl _, Nat.le_refl _⟩
  | cons u rest ih =>
    intro db c
    by_cases h1 : email_exists db (ldap_user_get_email u) = true
    · simp only [import_new_go, if_pos h1]
      exact ih db c
    · by_cases h2 : user_identity_exists db u.uidNumber = true
      · simp only [import_new_go, if_neg h1, if_pos h2]
        exact ih db c
      · simp only [import_new_go, if_neg h1, if_neg h2]
        obtain ⟨t1, t2, t3, t4, e1, e2, e3, e4, b1, b2, b3, mon1, mon2⟩ :=
          ih (import_user db u).2 (c + 1)
        refine ⟨{ id := db.next_user_id, email := ldap_user_get_email u } :: t1,
          { user_id := db.next_user_id, displayname := "id_" ++ natRepr db.next_user_id,
            full_name := u.displayName } :: t2,
          { id := db.next_ra_id, user_id := db.next_user_id,
            person_id := u.employeeID, department := some u.department } :: t3,
          { id := u.uidNumber, id_user := db.next_user_id } :: t4,
          ?_, ?_, ?_, ?_, ?_, ?_, ?_, ?_, ?_⟩
        · rw [e1]; simp [import_user]
        · rw [e2]; simp [import_user]
        · rw [e3]; simp [import_user]
        · rw [e4]; simp [import_user]
        · intro x hx
          rcases List.mem_cons.mp hx with he | ht
          · rw [he]
          · have := b1 x ht
            simp only [import_user] at this
            omega
        · intro p hp
          rcases List.mem_cons.mp hp with he | ht
          · rw [he]
          · have := b2 p ht
            simp only [import_user] at this
            omega
        · intro ra hra
          rcases List.mem_cons.mp hra with he | ht
          · rw [he]
            exact ⟨Nat.le_refl _, Nat.le_refl _⟩
          · have := b3 ra ht
            simp only [import_user] at this
            omega
        · have : (import_user db u).2.next_user_id = db.next_user_id + 1 := rfl
          omega
        · have : (import_user db u).2.next_ra_id = db.next_ra_id + 1 := rfl
          omega

theorem import_new_go_preserves_synced (l : List LdapUser) (db : DB) (c : Nat)
    (uid raid : Nat) (lu : LdapUser)
    (h1 : uid < db.next_user_id) (h2 : raid < db.next_ra_id)
    (hs : SyncedAt db uid raid lu) :
    SyncedAt (import_new_go l db c).1 uid raid lu := by
  obtain ⟨t1, t2, t3, t4, e1, e2, e3, e4, b1, b2, b3, -, -⟩ :=
    import_new_go_ext l db c
  obtain ⟨s1, s2, s3⟩ := hs
  refine ⟨?_, ?_, ?_⟩
  · have hfalse : ∀ p ∈ t2, (p.user_id == uid) = false := by
      intro p hp
      have hb := b2 p hp
      simp only [beq_eq_false_iff_ne, ne_eq]
      omega
    rw [e2, query_one_append_right _ _ _ hfalse]
    exact s1
  · have hfalse : ∀ ra ∈ t3, (ra.id == raid) = false := by
      intro ra hra
      have hb := (b3 ra hra).2
      simp only [beq_eq_false_iff_ne, ne_eq]
      omega
    rw [e3, query_one_append_right _ _ _ hfalse]
    exact s2
  · have hfalse : ∀ x ∈ t1, (x.id == uid) = false := by
      intro x hx
      have hb := b1 x hx
      simp only [beq_eq_false_iff_ne, ne_eq]
      omega
    rw [e1, query_one_append_right _ _ _ hfalse]
    exact s3

theorem import_new_go_ra_nodup :
    ∀ (l : List LdapUser) (db : DB) (c : Nat),
      (db.remote_accounts.map (fun ra => ra.id)).Nodup →
      (∀ i ∈ db.remote_accounts.map (fun ra => ra.id), i < db.next_ra_id) →
      ((import_new_go l db c).1.remote_accounts.map (fun ra => ra.id)).Nodup := by
  intro l
  induction l with
  | nil =>
    intro db c hnd _
    simpa [import_new_go] using hnd
  | cons u rest ih =>
    intro db c hnd hb
    by_cases h1 : email_exists db (ldap_user_get_email u) = true
    · simp only [import_new_go, if_pos h1]
      exact ih db c hnd hb
    · by_cases h2 : user_identity_exists db u.uidNumber = true
      · simp only [import_new_go, if_neg h1, if_pos h2]
        exact ih db c hnd hb
      · simp only [import_new_go, if_neg h1, if_neg h2]
        refine ih (import_user db u).2 (c + 1) ?_ ?_
        · have he : (import_user db u).2.remote_accounts.map (fun ra => ra.id)
              = db.remote_accounts.map (fun ra => ra.id) ++ [db.next_ra_id] := by
            simp [import_user]
          rw [he, List.nodup_append]
          refine ⟨hnd, List.nodup_singleton _, ?_⟩
          intro a ha hb2
          simp only [List.mem_singleton] at hb2
          subst hb2
          exact absurd (hb _ ha) (by omega)
        · have he : (import_user db u).2.remote_accounts.map (fun ra => ra.id)
              = db.remote_accounts.map (fun ra => ra.id) ++ [db.next_ra_id] := by
            simp [import_user]
          rw [he]
          intro i hi
          have hn : (import_user db u).2.next_ra_id = db.next_ra_id + 1 := rfl
          rw [hn]
          rcases List.mem_append.mp hi with hm | hm
          · have := hb i hm
            omega
          · simp only [List.mem_singleton] at hm
            omega

theorem email_exists_mono (l : List LdapUser) (db : DB) (c : Nat) (e : String)
    (h : email_exists db e = true) :
    email_exists (import_new_go l db c).1 e = true := by
  obtain ⟨t1, -, -, -, e1, -, -, -, -, -, -, -, -⟩ := import_new_go_ext l db c
  unfold email_exists at h ⊢
  rw [e1, List.any_append, h]
  rfl

theorem identity_exists_mono (l : List LdapUser) (db : DB) (c : Nat) (s : String)
    (h : user_identity_exists db s = true) :
    user_identity_exists (import_new_go l db c).1 s = true := by
  obtain ⟨-, -, -, t4, -, -, -, e4, -, -, -, -, -⟩ := import_new_go_ext l db c
  unfold user_identity_exists at h ⊢
  rw [e4, List.any_append, h]
  rfl

theorem import_new_go_post :
    ∀ (l : List LdapUser) (db : DB) (c : Nat),
      ∀ u ∈ l,
        (email_exists (import_new_go l db c).1 (ldap_user_get_email u) = true ∨
         user_identity_exists (import_new_go l db c).1 u.uidNumber = true) ∨
        u.employeeID ∈ (import_new_go l db c).1.remote_accounts.map
          (fun ra => ra.person_id) := by
  intro l
  induction l with
  | nil =>
    intro db c u hu
    cases hu
  | cons u0 rest ih =>
    intro db c u hu
    by_cases h1 : email_exists db (ldap_user_get_email u0) = true
    · simp only [import_new_go, if_pos h1]
      rcases List.mem_cons.mp hu with he | ht
      · subst he
        exact Or.inl (Or.inl (email_exists_mono rest db c _ h1))
      · exact ih db c u ht
    · by_cases h2 : user_identity_exists db u0.uidNumber = true
      · simp only [import_new_go, if_neg h1, if_pos h2]
        rcases List.mem_cons.mp hu with he | ht
        · subst he
          exact Or.inl (Or.inr (identity_exists_mono rest db c _ h2))
        · exact ih db c u ht
      · simp only [import_new_go, if_neg h1, if_neg h2]
        rcases List.mem_cons.mp hu with he | ht
        · subst he
          refine Or.inr ?_
          obtain ⟨-, -, t3, -, -, -, e3, -, -, -, -, -, -⟩ :=
            import_new_go_ext rest (import_user db u).2 (c + 1)
          rw [e3]
          have hmem : u.employeeID ∈ (import_user db u).2.remote_accounts.map
              (fun ra => ra.person_id) := by
            simp [import_user]
          rw [List.map_append]
          exact List.mem_append.mpr (Or.inl hmem)
        · exact ih (import_user db u0).2 (c + 1) u ht

theorem import_new_go_skip_all :
    ∀ (l : List LdapUser) (db : DB) (c : Nat),
      (∀ u ∈ l, email_exists db (ldap_user_get_email u) = true ∨
        user_identity_exists db u.uidNumber = true) →
      import_new_go l db c = (db, c) := by
  intro l
  induction l with
  | nil => intro db c _; rfl
  | cons u rest ih =>
    intro db c h
    have htail : ∀ v ∈ rest, email_exists db (ldap_user_get_email v) = true ∨
        user_identity_exists db v.uidNumber = true :=
      fun v hv => h v (List.mem_cons_of_mem _ hv)
    by_cases h1 : email_exists db (ldap_user_get_email u) = true
    · simp only [import_new_go, if_pos h1]
      exact ih db c htail
    · rcases h u (List.mem_cons_self _ _) with h2 | h2
      · exact absurd h2 h1
      · simp only [import_new_go, if_neg h1, if_pos h2]
        exact ih db c htail

theorem import_new_go_created :
    ∀ (l : List LdapUser) (db : DB) (c : Nat),
      (∀ i ∈ db.users.map (fun x => x.id), i < db.next_user_id) →
      (∀ i ∈ db.profiles.map (fun p => p.user_id), i < db.next_user_id) →
      (∀ i ∈ db.remote_accounts.map (fun ra => ra.id), i < db.next_ra_id) →
      ∀ ra ∈ (import_new_go l db c).1.remote_accounts,
        ra ∈ db.remote_accounts ∨
        ∃ u ∈ l, ra.person_id = u.employeeID ∧
          ra.department = some u.department ∧
          SyncedAt (import_new_go l db c).1 ra.user_id ra.id u := by
  intro l
  induction l with
  | nil =>
    intro db c _ _ _ ra hra
    exact Or.inl (by simpa [import_new_go] using hra)
  | cons u rest ih =>
    intro db c hbu hbp hbr ra hra
    by_cases h1 : email_exists db (ldap_user_get_email u) = true
    · simp only [import_new_go, if_pos h1] at hra ⊢
      rcases ih db c hbu hbp hbr ra hra with hm | ⟨u', hu', p1, p2, p3⟩
      · exact Or.inl hm
      · exact Or.inr ⟨u', List.mem_cons_of_mem _ hu', p1, p2, p3⟩
    · by_cases h2 : user_identity_exists db u.uidNumber = true
      · simp only [import_new_go, if_neg h1, if_pos h2] at hra ⊢
        rcases ih db c hbu hbp hbr ra hra with hm | ⟨u', hu', p1, p2, p3⟩
        · exact Or.inl hm
        · exact Or.inr ⟨u', List.mem_cons_of_mem _ hu', p1, p2, p3⟩
      · simp only [import_new_go, if_neg h1, if_neg h2] at hra ⊢
        have hbu1 : ∀ i ∈ (import_user db u).2.users.map (fun x => x.id),
            i < (import_user db u).2.next_user_id := by
          intro i hi
          have he : (import_user db u).2.users.map (fun x => x.id)
              = db.users.map (fun x => x.id) ++ [db.next_user_id] := by
            simp [import_user]
          rw [he] at hi
          have hn : (import_user db u).2.next_user_id = db.next_user_id + 1 := rfl
          rw [hn]
          rcases List.mem_append.mp hi with hm | hm
          · have := hbu i hm
            omega
          · simp only [List.mem_singleton] at hm
            omega
        have hbp1 : ∀ i ∈ (import_user db u).2.profiles.map (fun p => p.user_id),
            i < (import_user db u).2.next_user_id := by
          intro i hi
          have he : (import_user db u).2.profiles.map (fun p => p.user_id)
              = db.profiles.map (fun p => p.user_id) ++ [db.next_user_id] := by
            simp [import_user]
          rw [he] at hi
          have hn : (import_user db u).2.next_user_id = db.next_user_id + 1 := rfl
          rw [hn]
          rcases List.mem_append.mp hi with hm | hm
          · have := hbp i hm
            omega
          · simp only [List.mem_singleton] at hm
            omega
        have hbr1 : ∀ i ∈ (import_user db u).2.remote_accounts.map
            (fun ra => ra.id), i < (import_user db u).2.next_ra_id := by
          intro i hi
          have he : (import_user db u).2.remote_accounts.map (fun ra => ra.id)
              = db.remote_accounts.map (fun ra => ra.id) ++ [db.next_ra_id] := by
            simp [import_user]
          rw [he] at hi
          have hn : (import_user db u).2.next_ra_id = db.next_ra_id + 1 := rfl
          rw [hn]
          rcases List.mem_append.mp hi with hm | hm
          · have := hbr i hm
            omega
          · simp only [List.mem_singleton] at hm
            omega
        rcases ih (import_user db u).2 (c + 1) hbu1 hbp1 hbr1 ra hra
          with hm | ⟨u', hu', p1, p2, p3⟩
        · have he : (import_user db u).2.remote_accounts
              = db.remote_accounts ++
                [{ id := db.next_ra_id, user_id := db.next_user_id,
                   person_id := u.employeeID,
                   department := some u.department }] := by
            simp [import_user]
          rw [he] at hm
          rcases List.mem_append.mp hm with hold | hnew
          · exact Or.inl hold
          · simp only [List.mem_singleton] at hnew
            subst hnew
            refine Or.inr ⟨u, List.mem_cons_self _ _, rfl, rfl, ?_⟩
            refine import_new_go_preserves_synced rest (import_user db u).2
              (c + 1) db.next_user_id db.next_ra_id u (by
                have hn : (import_user db u).2.next_user_id
                    = db.next_user_id + 1 := rfl
                omega) (by
                have hn : (import_user db u).2.next_ra_id
                    = db.next_ra_id + 1 := rfl
                omega) ?_
            refine ⟨?_, ?_, ?_⟩
            · have he2 : (import_user db u).2.profiles = db.profiles ++
                  [{ user_id := db.next_user_id,
                     displayname := "id_" ++ natRepr db.next_user_id,
                     full_name := u.displayName }] := by
                simp [import_user]
              rw [he2, query_one_append_left _ _ _ (by
                intro p hp
                have := hbp p.user_id (List.mem_map_of_mem (fun p => p.user_id) hp)
                simp only [beq_eq_false_iff_ne, ne_eq]
                omega)]
              simp [query_one, List.filter]
            · have he2 : (import_user db u).2.remote_accounts = db.remote_accounts ++
                  [{ id := db.next_ra_id, user_id := db.next_user_id,
                     person_id := u.employeeID,
                     department := some u.department }] := by
                simp [import_user]
              rw [he2, query_one_append_left _ _ _ (by
                intro x hx
                have := hbr x.id (List.mem_map_of_mem (fun x => x.id) hx)
                simp only [beq_eq_false_iff_ne, ne_eq]
                omega)]
              simp [query_one, List.filter]
            · have he2 : (import_user db u).2.users = db.users ++
                  [{ id := db.next_user_id,
                     email := ldap_user_get_email u }] := by
                simp [import_user]
              rw [he2, query_one_append_left _ _ _ (by
                intro x hx
                have := hbu x.id (List.mem_map_of_mem (fun x => x.id) hx)
                simp only [beq_eq_false_iff_ne, ne_eq]
                omega)]
              simp [query_one, List.filter]
        · exact Or.inr ⟨u', List.mem_cons_of_mem _ hu', p1, p2, p3⟩

/-- C2: running `update_users` a second time immediately after a first run,
with unchanged LDAP data and starting from a well-formed database, updates
zero records, adds zero records and leaves the database state unchanged
(the fetched count is reported as before). -/
theorem claim_C2 (db : DB) (ldap : List LdapUser) (r : (Nat × Nat × Nat) × DB)
    (hwf : WF db) (h : update_users db ldap = some r) :
    update_users r.2 ldap = some ((r.1.1, 0, 0), r.2) := by
  obtain ⟨wf1, wf2, wf3, wf4, wf5, hb1, hb2, hb3, hb4⟩ := hwf
  unfold update_users at h ⊢
  by_cases hemp : (get_ldap_users ldap).2.2 = []
  · rw [if_pos hemp] at h ⊢
    simp only [Option.some.injEq] at h
    subst h
    rfl
  · rw [if_neg hemp] at h ⊢
    cases hupd : update_invenio_users_from_ldap db db.remote_accounts
        (get_ldap_users ldap).2.1 with
    | none =>
      rw [hupd] at h
      exact Option.noConfusion h
    | some t =>
      obtain ⟨db1, m1, upd⟩ := t
      simp only [hupd, Option.some.injEq] at h
      subst h
      dsimp only
      unfold update_invenio_users_from_ldap at hupd
      unfold import_new_ldap_users
      -- the map built from the listing, with its invariants
      have hMinv := get_ldap_users_go_inv ldap [] []
        (by simp [mapKeysNodup]) (by simp)
      have hMnd : mapKeysNodup (get_ldap_users ldap).2.1 := hMinv.1
      have hMkey : ∀ e ∈ (get_ldap_users ldap).2.1, e.1 = e.2.employeeID :=
        hMinv.2
      -- run 1 preserves the table shapes
      obtain ⟨sU, sP, sR, sI, sNu, sNr⟩ :=
        update_loop_shape db.remote_accounts db (get_ldap_users ldap).2.1 0
          db1 m1 upd hupd
      have hRAid1 : db1.remote_accounts.map (fun ra => ra.id)
          = db.remote_accounts.map (fun ra => ra.id) := by
        have hc := congrArg (List.map (fun t : Nat × Nat × String => t.1)) sR
        simpa [List.map_map, Function.comp] using hc
      have hRAuser1 : db1.remote_accounts.map (fun ra => ra.user_id)
          = db.remote_accounts.map (fun ra => ra.user_id) := by
        have hc := congrArg (List.map (fun t : Nat × Nat × String => t.2.1)) sR
        simpa [List.map_map, Function.comp] using hc
      have hb1' : ∀ i ∈ db1.users.map (fun x => x.id), i < db1.next_user_id := by
        rw [sU, sNu]
        exact hb1
      have hb2' : ∀ i ∈ db1.profiles.map (fun p => p.user_id),
          i < db1.next_user_id := by
        rw [sP, sNu]
        exact hb2
      have hb3' : ∀ i ∈ db1.remote_accounts.map (fun ra => ra.user_id),
          i < db1.next_user_id := by
        rw [hRAuser1, sNu]
        exact hb3
      have hb4' : ∀ i ∈ db1.remote_accounts.map (fun ra => ra.id),
          i < db1.next_ra_id := by
        rw [hRAid1, sNr]
        exact hb4
      -- run 1 postcondition: matched pairs are in sync in db1
      have hpost := update_loop_post db.remote_accounts db
        (get_ldap_users ldap).2.1 0 db1 m1 upd hupd hMnd wf5 wf4 wf3
        (fun iu h => h) wf3
      obtain ⟨hm1nd, hm1sub, hm1keys⟩ := update_loop_map db.remote_accounts db
        (get_ldap_users ldap).2.1 0 db1 m1 upd hupd hMnd
      -- the state after the import pass
      obtain ⟨t1, t2, t3, t4, e1, e2, e3, e4, bb1, bb2, bb3, mono1, mono2⟩ :=
        import_new_go_ext (mapValues m1) db1 0
      have hdb2RAnd := import_new_go_ra_nodup (mapValues m1) db1 0
        (by rw [hRAid1]; exact wf3) hb4'
      -- every remote account of db2 matched in the map is in sync with it
      have hkey1 : ∀ iu ∈ (import_new_go (mapValues m1) db1 0).1.remote_accounts,
          ∀ lu, mapLookup (get_ldap_users ldap).2.1 iu.person_id = some lu →
          SyncedAt (import_new_go (mapValues m1) db1 0).1 iu.user_id iu.id lu ∧
          iu.department = some lu.department := by
        intro iu hiu lu hlu
        rcases import_new_go_created (mapValues m1) db1 0 hb1' hb2' hb4' iu hiu
          with hold | ⟨u, humem, hper, hdept, hsync⟩
        · have htr : (iu.id, iu.user_id, iu.person_id) ∈ db.remote_accounts.map
              (fun ra => (ra.id, ra.user_id, ra.person_id)) := by
            rw [← sR]
            exact List.mem_map_of_mem _ hold
          obtain ⟨iu0, hiu0, htre⟩ := List.mem_map.mp htr
          simp only [Prod.mk.injEq] at htre
          obtain ⟨hid0, huid0, hper0⟩ := htre
          have hsync1 : SyncedAt db1 iu.user_id iu.id lu := by
            have hp0 := hpost iu0 hiu0 lu (by rw [hper0]; exact hlu)
            rw [huid0, hid0] at hp0
            exact hp0
          have hsync2 : SyncedAt (import_new_go (mapValues m1) db1 0).1
              iu.user_id iu.id lu :=
            import_new_go_preserves_synced (mapValues m1) db1 0
              iu.user_id iu.id lu
              (hb3' iu.user_id (List.mem_map_of_mem (fun ra => ra.user_id) hold))
              (hb4' iu.id (List.mem_map_of_mem (fun ra => ra.id) hold))
              hsync1
          refine ⟨hsync2, ?_⟩
          have hq := query_one_key_self
            (import_new_go (mapValues m1) db1 0).1.remote_accounts
            (fun ra => ra.id) iu hiu hdb2RAnd
          have hdep2 := hsync2.2.1
          rw [hq] at hdep2
          simpa using hdep2
        · have hlu_u : lu = u := by
            obtain ⟨e, hem1, heq⟩ := List.mem_map.mp humem
            have heM : e ∈ (get_ldap_users ldap).2.1 := hm1sub e hem1
            have hlk : mapLookup (get_ldap_users ldap).2.1 e.1 = some e.2 :=
              mapLookup_of_mem heM hMnd
            rw [hMkey e heM, heq] at hlk
            rw [hper] at hlu
            rw [hlk] at hlu
            exact (Option.some.injEq .. ▸ hlu).symm
          subst hlu_u
          exact ⟨hsync, hdept⟩
      -- run 2, update phase: nothing to update
      obtain ⟨m2, hm2⟩ := update_loop_synced
        (import_new_go (mapValues m1) db1 0).1.remote_accounts
        (import_new_go (mapValues m1) db1 0).1
        (get_ldap_users ldap).2.1 0 hMnd hkey1
      obtain ⟨hm2nd, hm2sub, hm2keys⟩ := update_loop_map
        (import_new_go (mapValues m1) db1 0).1.remote_accounts
        (import_new_go (mapValues m1) db1 0).1
        (get_ldap_users ldap).2.1 0
        (import_new_go (mapValues m1) db1 0).1 m2 0 hm2 hMnd
      -- run 2, import phase: everything left is skipped
      have hskip : ∀ u ∈ mapValues m2,
          email_exists (import_new_go (mapValues m1) db1 0).1
            (ldap_user_get_email u) = true ∨
          user_identity_exists (import_new_go (mapValues m1) db1 0).1
            u.uidNumber = true := by
        intro u hu
        obtain ⟨e, hem2, heq⟩ := List.mem_map.mp hu
        have heM : e ∈ (get_ldap_users ldap).2.1 := hm2sub e hem2
        have hkey_not2 : ∀ iu ∈ (import_new_go (mapValues m1) db1 0).1.remote_accounts,
            e.1 ≠ iu.person_id := fun iu hiu => hm2keys e hem2 iu hiu
        have hkey_not1 : ∀ iu ∈ db.remote_accounts, e.1 ≠ iu.person_id := by
          intro iu0 hiu0 hkeq
          have htr : (iu0.id, iu0.user_id, iu0.person_id)
              ∈ db1.remote_accounts.map
                (fun ra => (ra.id, ra.user_id, ra.person_id)) := by
            rw [sR]
            exact List.mem_map_of_mem _ hiu0
          obtain ⟨iu1, hiu1, htre⟩ := List.mem_map.mp htr
          simp only [Prod.mk.injEq] at htre
          have hiu1mem : iu1 ∈ (import_new_go (mapValues m1) db1 0).1.remote_accounts := by
            rw [e3]
            exact List.mem_append.mpr (Or.inl hiu1)
          exact hkey_not2 iu1 hiu1mem (by rw [htre.2.2]; exact hkeq)
        have hem1 : e ∈ m1 := update_loop_keep db.remote_accounts db
          (get_ldap_users ldap).2.1 0 db1 m1 upd hupd e heM hkey_not1
        have huv1 : u ∈ mapValues m1 := by
          rw [← heq]
          exact List.mem_map_of_mem _ hem1
        rcases import_new_go_post (mapValues m1) db1 0 u huv1 with hcond | hper
        · exact hcond
        · exfalso
          obtain ⟨ra2, hra2, hraeq⟩ := List.mem_map.mp hper
          apply hkey_not2 ra2 hra2
          rw [hMkey e heM, heq, ← hraeq]
      have hrun2import : import_new_go (mapValues m2)
          (import_new_go (mapValues m1) db1 0).1 0
          = ((import_new_go (mapValues m1) db1 0).1, 0) :=
        import_new_go_skip_all (mapValues m2)
          (import_new_go (mapValues m1) db1 0).1 0 hskip
      have hm2' : update_invenio_users_from_ldap
          (import_new_go (mapValues m1) db1 0).1
          (import_new_go (mapValues m1) db1 0).1.remote_accounts
          (get_ldap_users ldap).2.1
          = some ((import_new_go (mapValues m1) db1 0).1, m2, 0) := hm2
      rw [hm2']
      dsimp only
      rw [hrun2import]

/-- Witness for C2: a first run over the empty database imports one user;
the immediate second run reports zero updates and zero additions and leaves
the database as it was. -/
theorem claim_C2_witness :
    WF exEmptyDb ∧
    update_users exEmptyDb [exLdapUser1] = some ((1, 0, 1), exDbAfter) ∧
    update_users exDbAfter [exLdapUser1] = some ((1, 0, 0), exDbAfter) :=
  ⟨by unfold WF DBBounds; decide, by decide,
    claim_C2 exEmptyDb [exLdapUser1] ((1, 0, 1), exDbAfter)
      (by unfold WF DBBounds; decide) (by decide)⟩

end CdsIls
